import Mathlib

/-!
Shallow embedding of the catalog-reconciliation program (`compare_json.py`)
and the secondary duplicate scanner (`find_duplicates.py`), together with
theorems settling the specification claims.

Strings are modelled as Lean `String`s over their `List Char` data.  The
Unicode-dependent primitives of the Python standard library
(`str.lower`, `unicodedata.normalize("NFKD", ...)`, `unicodedata.combining`,
the `\s` class of `re`) are embedded through explicit finite character
tables covering the fragment exercised by this development (ASCII, the
Latin accented letters, the no-break space and a few combining marks);
characters outside the tables behave as the identity, which is faithful to
the Unicode data for them.
-/

namespace CompareJson

/-- Characters matched by the whitespace class used in
`re.sub(r"\s+", " ", ...)` and `str.strip()` (fragment): ASCII whitespace
plus the no-break space U+00A0. -/
def isPySpace (c : Char) : Bool :=
  c == ' ' || c == '\t' || c == '\n' || c == '\r' || c == '\x0b' ||
    c == '\x0c' || c == '\u00A0'

/-- Lowercasing table for `str.lower` (fragment: ASCII letters and the
accented capitals of the catalog data). -/
def lowerTable : List (Char × Char) :=
  [('A', 'a'), ('B', 'b'), ('C', 'c'), ('D', 'd'), ('E', 'e'), ('F', 'f'),
   ('G', 'g'), ('H', 'h'), ('I', 'i'), ('J', 'j'), ('K', 'k'), ('L', 'l'),
   ('M', 'm'), ('N', 'n'), ('O', 'o'), ('P', 'p'), ('Q', 'q'), ('R', 'r'),
   ('S', 's'), ('T', 't'), ('U', 'u'), ('V', 'v'), ('W', 'w'), ('X', 'x'),
   ('Y', 'y'), ('Z', 'z'),
   ('Á', 'á'), ('É', 'é'), ('Í', 'í'), ('Ó', 'ó'), ('Ú', 'ú'),
   ('Ñ', 'ñ'), ('Ü', 'ü'), ('À', 'à'), ('È', 'è'), ('Ì', 'ì'),
   ('Ò', 'ò'), ('Ù', 'ù')]

def pyLower (c : Char) : Char := (lowerTable.lookup c).getD c

/-- NFKD decomposition table (fragment): each accented Latin letter
decomposes into its base letter followed by the combining mark, exactly as
in the Unicode character database. -/
def nfkdTable : List (Char × List Char) :=
  [('á', ['a', '\u0301']), ('é', ['e', '\u0301']), ('í', ['i', '\u0301']),
   ('ó', ['o', '\u0301']), ('ú', ['u', '\u0301']), ('ñ', ['n', '\u0303']),
   ('ü', ['u', '\u0308']), ('à', ['a', '\u0300']), ('è', ['e', '\u0300']),
   ('ì', ['i', '\u0300']), ('ò', ['o', '\u0300']), ('ù', ['u', '\u0300']),
   ('Á', ['A', '\u0301']), ('É', ['E', '\u0301']), ('Í', ['I', '\u0301']),
   ('Ó', ['O', '\u0301']), ('Ú', ['U', '\u0301']), ('Ñ', ['N', '\u0303']),
   ('Ü', ['U', '\u0308'])]

def nfkd (c : Char) : List Char := (nfkdTable.lookup c).getD [c]

/-- Combining (diacritical) marks: `unicodedata.combining(c) != 0`
(fragment). -/
def combiningTable : List Char := ['\u0300', '\u0301', '\u0303', '\u0308']

def combining (c : Char) : Bool := combiningTable.contains c

/-- `text.replace("\u00A0", " ")`. -/
def replaceNbsp (l : List Char) : List Char :=
  l.map (fun c => if c == '\u00A0' then ' ' else c)

/-- `re.sub(r"\s+", " ", ...)`, as a left-to-right scan: a whitespace
character opening a run (the flag records whether the previous character
was whitespace) emits a single ordinary space, the rest of the run emits
nothing. -/
def collapseGo : Bool → List Char → List Char
  | _, [] => []
  | inRun, c :: cs =>
    if isPySpace c then
      if inRun then collapseGo true cs else ' ' :: collapseGo true cs
    else c :: collapseGo false cs

/-- Each maximal whitespace run becomes a single ordinary space. -/
def collapseWs (l : List Char) : List Char := collapseGo false l

/-- `str.strip()`: drop whitespace at both ends. -/
def stripEnds (l : List Char) : List Char :=
  ((l.dropWhile isPySpace).reverse.dropWhile isPySpace).reverse

/-- `normalize_whitespace` on character lists. -/
def nwsChars (l : List Char) : List Char :=
  stripEnds (collapseWs (replaceNbsp l))

def normalize_whitespace (s : String) : String := ⟨nwsChars s.data⟩

/-- `_strip_accents`: NFKD-decompose, then drop combining marks. -/
def stripAccents (l : List Char) : List Char :=
  (l.flatMap nfkd).filter (fun c => !combining c)

def normalize_text_chars (l : List Char) : List Char :=
  stripAccents ((nwsChars l).map pyLower)

/-- `normalize_text`: whitespace-normalize, lowercase, strip accents. -/
def normalize_text (s : String) : String := ⟨normalize_text_chars s.data⟩

/-- `.replace("ars", "")`: delete every (left-to-right, non-overlapping)
occurrence of the substring `ars`. -/
def removeArs : List Char → List Char
  | 'a' :: 'r' :: 's' :: rest => removeArs rest
  | c :: rest => c :: removeArs rest
  | [] => []

/-- The character class kept by `re.sub(r"[^0-9.,]", "", ...)`. -/
def keepsNum (c : Char) : Bool := c.isDigit || c == ',' || c == '.'

/-- The string `s` of `normalize_price` after lowercasing, whitespace
normalization, currency-marker removal and stripping to digits, commas and
dots (lines 61-62 of the source). -/
def priceStripped (p : String) : List Char :=
  (removeArs (nwsChars (p.data.map pyLower))).filter keepsNum

/-- Line 63-64: a single comma with no dot becomes the decimal dot. -/
def priceStep4 (s : List Char) : List Char :=
  if s.count ',' == 1 && s.count '.' == 0 then
    s.map (fun c => if c == ',' then '.' else c)
  else s

/-- Python `str.split(sep)` for a one-character separator. -/
def pySplit (sep : Char) : List Char → List (List Char)
  | [] => [[]]
  | c :: cs =>
    match pySplit sep cs with
    | [] => [[]]
    | h :: t => if c == sep then [] :: h :: t else (c :: h) :: t

def normalize_price_chars (p : String) : List Char :=
  let s := priceStep4 (priceStripped p)
  if 1 < s.count '.' then
    let parts := pySplit '.' s
    parts.dropLast.flatten ++ '.' :: parts.getLastD []
  else if 1 < s.count ',' then
    let parts := pySplit ',' s
    parts.dropLast.flatten ++ '.' :: parts.getLastD []
  else s

/-- `normalize_price`. -/
def normalize_price (p : String) : String := ⟨normalize_price_chars p⟩

/-- An input item: a JSON object that may or may not carry each of the
three fields.  `none` models an absent key; `item.get(k, default)` is
`Option.getD`, while the subscript access `item[k]` is partial. -/
structure Item where
  title : Option String
  details : Option (List String)
  price : Option String
deriving DecidableEq, Repr

/-- Insert a string into an already sorted list (ascending). -/
def insertSorted (s : String) : List String → List String
  | [] => [s]
  | x :: xs => if s ≤ x then s :: x :: xs else x :: insertSorted s xs

/-- `sorted(...)` on strings: ascending insertion sort.  Only the sorted
sequence matters (it canonicalizes the multiset of details for equality
testing), matching Python's `tuple(sorted(...))`. -/
def sortStrings : List String → List String
  | [] => []
  | x :: xs => insertSorted x (sortStrings xs)

/-- `normalize_item`: the NormalizedKey triple
`(normalize_text(title), tuple(sorted(normalized details)), normalize_price(price))`. -/
def normalize_item (it : Item) : String × List String × String :=
  (normalize_text (it.title.getD ""),
   sortStrings ((it.details.getD []).map normalize_text),
   normalize_price (it.price.getD ""))

/-- `is_sold_out`: the `details` list has exactly one element which, after
text normalization, asterisk removal and trimming, equals `"agotado"`. -/
def is_sold_out (it : Item) : Bool :=
  match it.details.getD [] with
  | [d] =>
    (⟨stripEnds ((normalize_text d).data.filter (fun c => c != '*'))⟩ : String)
      == "agotado"
  | _ => false

/-- `filter_sold_out`. -/
def filter_sold_out (items : List Item) : List Item :=
  items.filter (fun it => !is_sold_out it)

/-- The normalized title a side's grouping and indexing keys an item by
(`normalize_text(it.get("title", ""))`). -/
def titleKey (it : Item) : String := normalize_text (it.title.getD "")

/-- An `anomalies` entry: either a duplicate group (its `item` field is a
list) or a same-title mismatch (its `item` field is the `{new, old}`
object). -/
inductive AnomalyEntry where
  | dup (item : List Item) (source : String) (reason : String)
  | mismatch (newItem oldItem : Item) (source : String) (reason : String)
deriving DecidableEq, Repr

/-- The f-string of line 128. -/
def dupReason (label : String) (n : Nat) (title : String) : String :=
  label ++ " contiene " ++ toString n ++
    " entradas duplicadas para el título \x27" ++ title ++ "\x27"

/-- The literal of line 147. -/
def mismatchReason : String :=
  "Mismo título pero \x27details\x27 y/o \x27price\x27 difieren"

/-- One step of `defaultdict(list)` grouping: append `it` to the group of
key `k`, creating the group at the end if the key is new (Python dicts
keep first-insertion key order). -/
def groupUpsert (g : List (String × List Item)) (k : String) (it : Item) :
    List (String × List Item) :=
  if g.any (fun p => p.1 == k) then
    g.map (fun p => if p.1 == k then (p.1, p.2 ++ [it]) else p)
  else g ++ [(k, [it])]

/-- Lines 120-122: group a side's items by normalized title. -/
def groupByTitle (items : List Item) : List (String × List Item) :=
  items.foldl (fun g it => groupUpsert g (titleKey it) it) []

/-- Lines 119-129 (`detect_duplicates`): one anomaly entry per group with
more than one member, in grouping order. -/
def detect_duplicates (items : List Item) (label : String) :
    List AnomalyEntry :=
  (groupByTitle items).filterMap (fun p =>
    if 1 < p.2.length then
      some (.dup p.2 label (dupReason label p.2.length p.1))
    else none)

/-- One step of the dict comprehension of lines 134-135: insert with
last-write-wins on the value but first-insertion key order. -/
def mapUpsert (m : List (String × Item)) (k : String) (it : Item) :
    List (String × Item) :=
  if m.any (fun p => p.1 == k) then
    m.map (fun p => if p.1 == k then (p.1, it) else p)
  else m ++ [(k, it)]

/-- The dict comprehension `{normalize_text(i["title"]): i for i in items}`:
`none` models the `KeyError` raised when an item has no `title` key. -/
def buildTitleMapGo (acc : List (String × Item)) :
    List Item → Option (List (String × Item))
  | [] => some acc
  | it :: rest =>
    match it.title with
    | none => none
    | some t => buildTitleMapGo (mapUpsert acc (normalize_text t) it) rest

def buildTitleMap (items : List Item) : Option (List (String × Item)) :=
  buildTitleMapGo [] items

/-- Lines 137-148: walk the new-side index and produce
`(to_insert, unchanged, mismatch anomalies)` in index order. -/
def classifyNew (old_map : List (String × Item)) :
    List (String × Item) → List Item × List Item × List AnomalyEntry
  | [] => ([], [], [])
  | (k, it) :: rest =>
    let r := classifyNew old_map rest
    match List.lookup k old_map with
    | none => (it :: r.1, r.2.1, r.2.2)
    | some oldIt =>
      if normalize_item it = normalize_item oldIt then
        (r.1, it :: r.2.1, r.2.2)
      else
        (r.1, r.2.1, .mismatch it oldIt "both" mismatchReason :: r.2.2)

structure ClassificationResult where
  to_insert : List Item
  to_remove : List Item
  unchanged : List Item
  anomalies : List AnomalyEntry
deriving DecidableEq, Repr

/-- `compare` (lines 116-159).  The duplicate passes run first and append
to `anomalies`; then the two title indexes are built (raising — `none` —
if any item lacks a `title` key), the new-side index is classified, and
the old-side index yields `to_remove`. -/
def compare (new_items old_items : List Item) : Option ClassificationResult :=
  let dupAnoms := detect_duplicates new_items "nuevo.json" ++
    detect_duplicates old_items "viejo.json"
  match buildTitleMap new_items, buildTitleMap old_items with
  | some new_map, some old_map =>
    let c := classifyNew old_map new_map
    let rems := old_map.filterMap (fun p =>
      if new_map.any (fun q => q.1 == p.1) then none else some p.2)
    some ⟨c.1, rems, c.2.1, dupAnoms ++ c.2.2⟩
  | _, _ => none

/-- Lines 167-173: the raw flattening pass of `flatten_new_anomalies` —
all members of new-side duplicate groups, plus the `new` item of every
mismatch entry. -/
def flattenRaw : List AnomalyEntry → List Item
  | [] => []
  | .dup items src _ :: rest =>
    (if src == "nuevo.json" then items else []) ++ flattenRaw rest
  | .mismatch n _ _ _ :: rest => n :: flattenRaw rest

/-- The seen-set deduplication loop shared by lines 174-181 and 185-191:
keep the first item of each normalized title. -/
def dedupGo (seen : List String) : List Item → List Item
  | [] => []
  | it :: rest =>
    if seen.contains (titleKey it) then dedupGo seen rest
    else it :: dedupGo (titleKey it :: seen) rest

/-- `flatten_new_anomalies` (lines 165-181). -/
def flatten_new_anomalies (anoms : List AnomalyEntry) : List Item :=
  dedupGo [] (flattenRaw anoms)

/-- `build_ready_list` (lines 184-192). -/
def build_ready_list (to_insert anomalies_new : List Item) : List Item :=
  dedupGo [] (to_insert ++ anomalies_new)

/-- Specification view: keep the first occurrence of each string,
dropping the later ones. -/
def firstDedup : List String → List String
  | [] => []
  | x :: xs => x :: firstDedup (xs.filter (fun y => y != x))
termination_by l => l.length
decreasing_by
  simp_wf
  have := List.length_filter_le (fun y => y != x) xs
  omega

/-- Specification view: keep the first item of each normalized title,
dropping the later ones, preserving order. -/
def dedupByTitleSpec : List Item → List Item
  | [] => []
  | it :: rest =>
    it :: dedupByTitleSpec (rest.filter (fun x => titleKey x != titleKey it))
termination_by l => l.length
decreasing_by
  simp_wf
  have := List.length_filter_le (fun x => titleKey x != titleKey it) rest
  omega

/-- Specification view of the duplicate detector's grouping: the distinct
normalized titles in first-appearance order, each paired with all of the
side's items bearing that title, in input order. -/
def specGroups (items : List Item) : List (String × List Item) :=
  (firstDedup (items.map titleKey)).map
    (fun t => (t, items.filter (fun it => titleKey it == t)))

/-- An item occurring inside an anomaly entry: a member of a duplicate
group, or either side of a mismatch pair. -/
def anomalyMember (x : Item) : AnomalyEntry → Prop
  | .dup items _ _ => x ∈ items
  | .mismatch n o _ _ => x = n ∨ x = o

/-- A normalized title appearing on the new side of an anomaly entry. -/
def anomalyNewTitle (k : String) : AnomalyEntry → Prop
  | .dup items _ _ => k ∈ items.map titleKey
  | .mismatch n _ _ _ => titleKey n = k

/-- A normalized title appearing on the old side of an anomaly entry. -/
def anomalyOldTitle (k : String) : AnomalyEntry → Prop
  | .dup items _ _ => k ∈ items.map titleKey
  | .mismatch _ o _ _ => titleKey o = k

/-- Exactly one of three alternatives holds. -/
def exactlyOne (a b c : Prop) : Prop :=
  (a ∧ ¬b ∧ ¬c) ∨ (¬a ∧ b ∧ ¬c) ∨ (¬a ∧ ¬b ∧ c)

/-- The characters a single character contributes to the normalized text
after lowercasing, NFKD decomposition and combining-mark removal. -/
def outC (c : Char) : List Char :=
  (nfkd (pyLower c)).filter (fun d => !combining d)

/-- A character is *tame* when its contribution to the normalized text is
nonempty and consists only of characters that are not whitespace, fixed
by lowercasing, fixed by decomposition, and not combining marks.  All
ordinary text characters are tame; combining marks (whose contribution is
empty) and characters decomposing to whitespace or uppercase are not. -/
def tameChar (c : Char) : Bool :=
  !(outC c).isEmpty &&
    (outC c).all (fun d =>
      !isPySpace d && (pyLower d == d) && (nfkd d == [d]) && !combining d)

/-- Every whitespace character of the list is the plain space. -/
def spacesArePlain (l : List Char) : Prop :=
  ∀ c ∈ l, isPySpace c = true → c = ' '

/-- No two adjacent characters are both whitespace. -/
def noAdjacentSpaces (l : List Char) : Prop :=
  l.Chain' (fun a b => ¬(isPySpace a = true ∧ isPySpace b = true))

/-- Neither end of the list is a whitespace character. -/
def noEdgeSpace (l : List Char) : Prop :=
  (∀ c ∈ l.head?, isPySpace c = false) ∧
    (∀ c ∈ l.getLast?, isPySpace c = false)

end CompareJson

namespace FindDuplicates

/-- The scanning loop of `find_duplicate_objects` (`find_duplicates.py`,
lines 22-42), generic over the value type: `seen` collects the first
occurrence of each distinct value, `dups` collects each value found again,
at most once. -/
def fdLoop {α : Type} [DecidableEq α] :
    List α → List α → List α → List α
  | [], _seen, dups => dups
  | x :: rest, seen, dups =>
    if x ∈ seen then
      if x ∈ dups then fdLoop rest seen dups
      else fdLoop rest seen (dups ++ [x])
    else fdLoop rest (seen ++ [x]) dups

/-- `find_duplicate_objects` on an already-decoded list (the file reading
and error branches are I/O plumbing outside the scanned list logic). -/
def find_duplicate_objects {α : Type} [DecidableEq α] (data : List α) :
    List α :=
  fdLoop data [] []

/-- Specification view: the occurrences of the input that are *not* the
first occurrence of their value — scanning left to right, an element is
kept iff its value was already seen.  The second occurrence of a value is
its first entry in this list. -/
def laterOccurrences {α : Type} [DecidableEq α] (seen : List α) :
    List α → List α
  | [] => []
  | x :: xs =>
    if x ∈ seen then x :: laterOccurrences seen xs
    else laterOccurrences (x :: seen) xs

/-- Specification view: keep-first deduplication, skipping values listed
in `avoid`. -/
def keepFirstAvoiding {α : Type} [DecidableEq α] (avoid : List α) :
    List α → List α
  | [] => []
  | x :: xs =>
    if x ∈ avoid then keepFirstAvoiding avoid xs
    else x :: keepFirstAvoiding (x :: avoid) xs

theorem laterOccurrences_congr {α : Type} [DecidableEq α]
    {s t : List α} (l : List α) (h : ∀ a, a ∈ s ↔ a ∈ t) :
    laterOccurrences s l = laterOccurrences t l := by
  induction l generalizing s t with
  | nil => rfl
  | cons x xs ih =>
    by_cases hx : x ∈ s
    · rw [laterOccurrences, laterOccurrences, if_pos hx,
        if_pos ((h x).1 hx), ih h]
    · rw [laterOccurrences, laterOccurrences, if_neg hx,
        if_neg (fun hx2 => hx ((h x).2 hx2))]
      exact ih (fun a => by simp only [List.mem_cons, h a])

theorem keepFirstAvoiding_congr {α : Type} [DecidableEq α]
    {s t : List α} (l : List α) (h : ∀ a, a ∈ s ↔ a ∈ t) :
    keepFirstAvoiding s l = keepFirstAvoiding t l := by
  induction l generalizing s t with
  | nil => rfl
  | cons x xs ih =>
    by_cases hx : x ∈ s
    · rw [keepFirstAvoiding, keepFirstAvoiding, if_pos hx,
        if_pos ((h x).1 hx)]
      exact ih h
    · rw [keepFirstAvoiding, keepFirstAvoiding, if_neg hx,
        if_neg (fun hx2 => hx ((h x).2 hx2))]
      exact congrArg (x :: ·) (ih (fun a => by simp only [List.mem_cons, h a]))

theorem fdLoop_spec {α : Type} [DecidableEq α]
    (l seen dups : List α) :
    fdLoop l seen dups = dups ++ keepFirstAvoiding dups (laterOccurrences seen l) := by
  induction l generalizing seen dups with
  | nil => simp [fdLoop, keepFirstAvoiding, laterOccurrences]
  | cons x xs ih =>
    by_cases hx : x ∈ seen
    · by_cases hd : x ∈ dups
      · rw [fdLoop, if_pos hx, if_pos hd, ih, laterOccurrences, if_pos hx,
          keepFirstAvoiding, if_pos hd]
      · rw [fdLoop, if_pos hx, if_neg hd, ih, laterOccurrences, if_pos hx,
          keepFirstAvoiding, if_neg hd,
          keepFirstAvoiding_congr (laterOccurrences seen xs)
            (t := x :: dups) (fun a => by simp [or_comm]),
          List.append_assoc]
        rfl
    · rw [fdLoop, if_neg hx, ih, laterOccurrences, if_neg hx,
        laterOccurrences_congr (s := seen ++ [x]) (t := x :: seen) xs
          (fun a => by simp [or_comm])]

theorem mem_keepFirstAvoiding {α : Type} [DecidableEq α]
    (avoid l : List α) (x : α) :
    x ∈ keepFirstAvoiding avoid l ↔ x ∈ l ∧ x ∉ avoid := by
  induction l generalizing avoid with
  | nil => simp [keepFirstAvoiding]
  | cons y ys ih =>
    by_cases hy : y ∈ avoid
    · rw [keepFirstAvoiding, if_pos hy, ih]
      constructor
      · exact fun ⟨h1, h2⟩ => ⟨List.mem_cons_of_mem _ h1, h2⟩
      · rintro ⟨h1, h2⟩
        rcases List.mem_cons.1 h1 with rfl | h1
        · exact absurd hy h2
        · exact ⟨h1, h2⟩
    · rw [keepFirstAvoiding, if_neg hy]
      constructor
      · intro h
        rcases List.mem_cons.1 h with rfl | h
        · exact ⟨List.mem_cons_self _ _, hy⟩
        · have := (ih (y :: avoid)).1 h
          exact ⟨List.mem_cons_of_mem _ this.1,
            fun hav => this.2 (List.mem_cons_of_mem _ hav)⟩
      · rintro ⟨h1, h2⟩
        rcases List.mem_cons.1 h1 with rfl | h1
        · exact List.mem_cons_self _ _
        · by_cases hxy : x = y
          · subst hxy; exact List.mem_cons_self _ _
          · exact List.mem_cons_of_mem _ ((ih (y :: avoid)).2
              ⟨h1, fun hm => (List.mem_cons.1 hm).elim hxy h2⟩)

theorem mem_laterOccurrences {α : Type} [DecidableEq α]
    (seen l : List α) (x : α) :
    x ∈ laterOccurrences seen l ↔ (x ∈ seen ∧ x ∈ l) ∨ 2 ≤ l.count x := by
  induction l generalizing seen with
  | nil => simp [laterOccurrences]
  | cons y ys ih =>
    by_cases hxy : x = y
    · subst hxy
      have hcnt : List.count x (x :: ys) = List.count x ys + 1 :=
        List.count_cons_self x ys
      by_cases hy : x ∈ seen
      · rw [laterOccurrences, if_pos hy]
        simp [hy]
      · rw [laterOccurrences, if_neg hy, ih, hcnt]
        simp only [List.mem_cons, true_or, and_true, true_and, hy,
          false_and, false_or]
        constructor
        · rintro (h | h)
          · have := List.count_pos_iff.2 h
            omega
          · omega
        · intro h
          have hpos : 0 < List.count x ys := by omega
          exact Or.inl (List.count_pos_iff.1 hpos)
    · have hcnt : List.count x (y :: ys) = List.count x ys :=
        List.count_cons_of_ne hxy ys
      by_cases hy : y ∈ seen
      · rw [laterOccurrences, if_pos hy]
        simp only [List.mem_cons, hxy, false_or, hcnt, ih]
      · rw [laterOccurrences, if_neg hy, ih, hcnt]
        simp [List.mem_cons, hxy]

theorem nodup_keepFirstAvoiding {α : Type} [DecidableEq α]
    (avoid l : List α) : (keepFirstAvoiding avoid l).Nodup := by
  induction l generalizing avoid with
  | nil => simp [keepFirstAvoiding]
  | cons y ys ih =>
    by_cases hy : y ∈ avoid
    · rw [keepFirstAvoiding, if_pos hy]; exact ih avoid
    · rw [keepFirstAvoiding, if_neg hy]
      refine List.Nodup.cons ?_ (ih (y :: avoid))
      intro hmem
      exact ((mem_keepFirstAvoiding _ _ _).1 hmem).2 (List.mem_cons_self _ _)

/-- C10: `find_duplicate_objects` equals the keep-first deduplication of
the input's non-first occurrences — so a value is listed iff it occurs at
least twice, each duplicated value is listed exactly once (the output has
no duplicates), and the output order is the order of each value's second
occurrence (its first entry in `laterOccurrences [] data`). -/
theorem C10_find_duplicate_objects_characterization
    {α : Type} [DecidableEq α] (data : List α) :
    find_duplicate_objects data =
        keepFirstAvoiding [] (laterOccurrences [] data) ∧
      (∀ x, x ∈ find_duplicate_objects data ↔ 2 ≤ data.count x) ∧
      (find_duplicate_objects data).Nodup := by
  have hchar : find_duplicate_objects data =
      keepFirstAvoiding [] (laterOccurrences [] data) := by
    rw [find_duplicate_objects, fdLoop_spec]
    rfl
  refine ⟨hchar, fun x => ?_, ?_⟩
  · rw [hchar, mem_keepFirstAvoiding, mem_laterOccurrences]
    simp
  · rw [hchar]; exact nodup_keepFirstAvoiding _ _

end FindDuplicates


namespace CompareJson

/-- C1: the claim says `compare` is defined even when an item lacks a
`title` key, treating the absent title as the empty string.  The code
contradicts it: the index comprehension at lines 134-135 subscripts
`i["title"]` (unlike every other access, which uses `.get` with a
default), so `compare` raises `KeyError` on a title-less item — modelled
here as `none` — while absent `details`/`price` indeed degrade to their
defaults and classify normally. -/
theorem C1_compare_missing_title_raises :
    compare [⟨none, some [], some ""⟩] [] = none ∧
      compare [⟨some "A", none, none⟩] [] =
        some ⟨[⟨some "A", none, none⟩], [], [], []⟩ := by
  constructor <;> rfl

/-- C2, counterexample: the three quoted price strings do not share one
normalization — `"ARS 1.234,56"` keeps both separators (one dot and one
comma trigger neither rewrite branch), so it differs from
`normalize_price "1234.56"`. -/
theorem C2_price_equivalence_counterexample :
    normalize_price "ARS 1.234,56" = "1.234,56" ∧
      normalize_price "1234.56" = "1234.56" ∧
      normalize_price "$1,234.56" = "1,234.56" ∧
      normalize_price "ARS 1.234,56" ≠ normalize_price "1234.56" := by
  refine ⟨rfl, rfl, rfl, ?_⟩
  decide

/-- C2, amended: the equivalence class does hold once the input mixes at
most one separator kind — `"ARS 1234,56"`, `"1234.56"` and `"$1234.56"`
all normalize to the same canonical string. -/
theorem C2_price_equivalence_amended :
    normalize_price "ARS 1234,56" = normalize_price "1234.56" ∧
      normalize_price "$1234.56" = normalize_price "1234.56" := by
  constructor <;> rfl

/-- C3, counterexample: `"1.234,56"` strips to a form with two separators
(more than one, counting both kinds together), yet `normalize_price`
returns it unchanged instead of the claimed `"1234.56"`: the code only
fires its splitting branch when a *single kind* occurs more than once. -/
theorem C3_multi_separator_counterexample :
    (priceStep4 (priceStripped "1.234,56")).count '.' +
        (priceStep4 (priceStripped "1.234,56")).count ',' = 2 ∧
      normalize_price "1.234,56" = "1.234,56" ∧
      ("1.234,56" : String) ≠ "1234.56" := by
  refine ⟨rfl, rfl, ?_⟩
  decide

/-- C4, counterexample: `normalize_text` is not idempotent.  For
`"x ́"` (an `x`, a space and a combining acute accent) the first pass
deletes the combining mark and leaves a trailing space, which the second
pass then strips. -/
theorem C4_idempotence_counterexample :
    normalize_text (normalize_text "x ́") ≠ normalize_text "x ́" := by
  decide

/-- C7, counterexample: the duplicate detector tags its entries with the
side labels `"nuevo.json"`/`"viejo.json"`, not `"new"`/`"old"` as the
claim states.  Two identically-titled new-side items produce exactly one
duplicate entry, whose source discriminator is `"nuevo.json"`. -/
theorem C7_duplicate_label_counterexample :
    compare [⟨some "Pizza", some ["muzzarella"], some "1000"⟩,
             ⟨some "PIZZA", some ["napolitana"], some "2000"⟩] [] =
      some ⟨[⟨some "PIZZA", some ["napolitana"], some "2000"⟩], [], [],
        [.dup [⟨some "Pizza", some ["muzzarella"], some "1000"⟩,
               ⟨some "PIZZA", some ["napolitana"], some "2000"⟩]
          "nuevo.json"
          "nuevo.json contiene 2 entradas duplicadas para el título \x27pizza\x27"]⟩ ∧
      ("nuevo.json" : String) ≠ "new" ∧ ("nuevo.json" : String) ≠ "old" := by
  refine ⟨rfl, ?_, ?_⟩ <;> decide

/-- C9, counterexample: `"."` contains no digit, yet `normalize_price`
returns `"."`, not the empty string — the digit-comma-dot strip keeps
separator characters even when no digit survives. -/
theorem C9_no_digit_counterexample :
    ("." : String).data.all (fun c => !c.isDigit) = true ∧
      normalize_price "." = "." ∧ ("." : String) ≠ "" := by
  refine ⟨rfl, rfl, ?_⟩
  decide

end CompareJson

namespace CompareJson

theorem dedupGo_spec (l : List Item) : ∀ seen : List String,
    dedupGo seen l =
      dedupByTitleSpec (l.filter (fun x => !seen.contains (titleKey x))) := by
  induction l with
  | nil =>
    intro seen
    simp [dedupGo, dedupByTitleSpec]
  | cons it rest ih =>
    intro seen
    by_cases hm : titleKey it ∈ seen
    · have hf : List.filter (fun x => !seen.contains (titleKey x)) (it :: rest) =
          List.filter (fun x => !seen.contains (titleKey x)) rest := by
        simp [List.filter_cons, hm]
      rw [dedupGo, if_pos (by simpa using hm), hf, ih]
    · have hf : List.filter (fun x => !seen.contains (titleKey x)) (it :: rest) =
          it :: List.filter (fun x => !seen.contains (titleKey x)) rest := by
        simp [List.filter_cons, hm]
      rw [dedupGo, if_neg (by simpa using hm), hf]
      rw [show dedupByTitleSpec
          (it :: rest.filter (fun x => !seen.contains (titleKey x))) =
          it :: dedupByTitleSpec
            ((rest.filter (fun x => !seen.contains (titleKey x))).filter
              (fun x => titleKey x != titleKey it)) from by
        rw [dedupByTitleSpec]]
      rw [ih (titleKey it :: seen), List.filter_filter]
      have hff : List.filter
            (fun x => !(titleKey it :: seen).contains (titleKey x)) rest =
          List.filter
            (fun a => titleKey a != titleKey it && !seen.contains (titleKey a))
            rest := by
        apply List.filter_congr
        intro x _
        simp only [List.contains_cons, Bool.not_or]
        rfl
      rw [hff]

theorem mem_of_mem_dedupByTitleSpec {it : Item} :
    ∀ l, it ∈ dedupByTitleSpec l → it ∈ l := by
  intro l
  induction l using dedupByTitleSpec.induct with
  | case1 => simp [dedupByTitleSpec]
  | case2 x rest ih =>
    rw [dedupByTitleSpec]
    intro h
    rcases List.mem_cons.1 h with rfl | h
    · exact List.mem_cons_self _ _
    · exact List.mem_cons_of_mem _ (List.mem_of_mem_filter (ih h))

theorem nodup_titles_dedupByTitleSpec :
    ∀ l, ((dedupByTitleSpec l).map titleKey).Nodup := by
  intro l
  induction l using dedupByTitleSpec.induct with
  | case1 => simp [dedupByTitleSpec]
  | case2 x rest ih =>
    rw [dedupByTitleSpec, List.map_cons]
    refine List.Nodup.cons ?_ ih
    intro hmem
    rcases List.mem_map.1 hmem with ⟨y, hy, hty⟩
    have := List.of_mem_filter (mem_of_mem_dedupByTitleSpec _ hy)
    rw [hty] at this
    simp [bne] at this

theorem mem_firstDedup (a : String) :
    ∀ l, a ∈ firstDedup l ↔ a ∈ l := by
  intro l
  induction l using firstDedup.induct with
  | case1 => simp [firstDedup]
  | case2 x xs ih =>
    rw [firstDedup]
    by_cases hax : a = x
    · subst hax; simp
    · simp only [List.mem_cons, hax, false_or]
      rw [ih]
      constructor
      · exact fun h => List.mem_of_mem_filter h
      · intro h
        exact List.mem_filter.2 ⟨h, by simp [hax]⟩

theorem firstDedup_append (k : String) :
    ∀ l : List String, firstDedup (l ++ [k]) =
      if k ∈ l then firstDedup l else firstDedup l ++ [k] := by
  intro l
  induction l using firstDedup.induct with
  | case1 => simp [firstDedup]
  | case2 x xs ih =>
    rw [List.cons_append, firstDedup, List.filter_append]
    by_cases hkx : k = x
    · subst hkx
      have h0 : List.filter (fun y => y != k) [k] = [] := by simp
      rw [h0, List.append_nil, if_pos (List.mem_cons_self k xs), firstDedup]
    · have h0 : List.filter (fun y => y != x) [k] = [k] := by simp [hkx]
      rw [h0, ih]
      by_cases hk : k ∈ xs
      · have h1 : k ∈ xs.filter (fun y => y != x) :=
          List.mem_filter.2 ⟨hk, by simp [hkx]⟩
        rw [if_pos h1, if_pos (List.mem_cons_of_mem _ hk), firstDedup]
      · have h1 : k ∉ xs.filter (fun y => y != x) := fun hc =>
          hk (List.mem_of_mem_filter hc)
        have h2 : k ∉ x :: xs := by simp [hkx, hk]
        rw [if_neg h1, if_neg h2, firstDedup, List.cons_append]

theorem groupUpsert_spec (pre : List Item) (x : Item) :
    groupUpsert (specGroups pre) (titleKey x) x = specGroups (pre ++ [x]) := by
  have hkeys : specGroups (pre ++ [x]) =
      (firstDedup (pre.map titleKey ++ [titleKey x])).map
        (fun t => (t, (pre ++ [x]).filter (fun it => titleKey it == t))) := by
    rw [specGroups, List.map_append]
    rfl
  by_cases hk : titleKey x ∈ pre.map titleKey
  · have hany : (specGroups pre).any (fun p => p.1 == titleKey x) = true := by
      refine List.any_eq_true.2 ⟨(titleKey x,
        pre.filter (fun it => titleKey it == titleKey x)), ?_, ?_⟩
      · exact List.mem_map.2 ⟨titleKey x, (mem_firstDedup _ _).2 hk, rfl⟩
      · simp
    rw [groupUpsert, if_pos hany, hkeys, firstDedup_append, if_pos hk,
      specGroups, List.map_map]
    apply List.map_congr_left
    intro t _
    by_cases htk : t = titleKey x
    · subst htk
      simp [List.filter_append]
    · have hbeq : (t == titleKey x) = false := by
        simp [htk]
      have hbeq2 : (titleKey x == t) = false := by
        simp only [beq_eq_false_iff_ne, ne_eq]
        exact fun h => htk h.symm
      simp [Function.comp, hbeq, hbeq2, List.filter_append]
  · have hany : (specGroups pre).any (fun p => p.1 == titleKey x) = false := by
      rw [List.any_eq_false]
      intro p hmem
      rcases List.mem_map.1 hmem with ⟨t0, ht0, rfl⟩
      have ht0' : t0 ∈ pre.map titleKey := (mem_firstDedup _ _).1 ht0
      intro hbeq
      have ht0x : t0 = titleKey x := by
        exact beq_iff_eq.1 (by simpa using hbeq)
      exact hk (ht0x ▸ ht0')
    rw [groupUpsert, if_neg (by rw [hany]; exact Bool.false_ne_true), hkeys,
      firstDedup_append, if_neg hk, List.map_append]
    have hlast : List.map
        (fun t => (t, (pre ++ [x]).filter (fun it => titleKey it == t)))
        [titleKey x] = [(titleKey x, [x])] := by
      have hnil : pre.filter (fun it => titleKey it == titleKey x) = [] := by
        rw [List.filter_eq_nil_iff]
        intro a ha
        simp only [beq_eq_false_iff_ne, ne_eq, Bool.not_eq_true]
        intro heq
        exact hk (List.mem_map.2 ⟨a, ha, heq⟩)
      simp [List.filter_append, hnil]
    rw [hlast]
    congr 1
    rw [specGroups]
    apply List.map_congr_left
    intro t ht
    have ht2 : t ∈ pre.map titleKey := (mem_firstDedup _ _).1 ht
    have htk : titleKey x ≠ t := fun h => hk (h ▸ ht2)
    have hbeq : (titleKey x == t) = false := by simp [htk]
    simp [List.filter_append, hbeq]

theorem groupByTitle_spec (items : List Item) :
    groupByTitle items = specGroups items := by
  have hgen : ∀ (l : List Item) (pre : List Item),
      l.foldl (fun g it => groupUpsert g (titleKey it) it) (specGroups pre) =
        specGroups (pre ++ l) := by
    intro l
    induction l with
    | nil => intro pre; simp
    | cons x rest ih =>
      intro pre
      rw [List.foldl_cons, groupUpsert_spec, ih (pre ++ [x]),
        List.append_assoc]
      rfl
  have h0 : specGroups [] = ([] : List (String × List Item)) := by
    simp [specGroups, firstDedup]
  have := hgen items []
  rw [h0] at this
  rw [groupByTitle, this]
  rfl

theorem pySplit_ne_nil (sep : Char) (l : List Char) :
    pySplit sep l ≠ [] := by
  cases l with
  | nil => simp [pySplit]
  | cons c cs =>
    rw [pySplit]
    cases pySplit sep cs with
    | nil => simp
    | cons h t =>
      by_cases hc : c == sep
      · simp [hc]
      · simp [hc]

theorem pySplit_cons_eq (sep c : Char) (cs : List Char) {h : List Char}
    {t : List (List Char)} (hp : pySplit sep cs = h :: t) :
    pySplit sep (c :: cs) =
      if c == sep then [] :: h :: t else (c :: h) :: t := by
  rw [pySplit, hp]

theorem pySplit_no_sep (sep : Char) (l : List Char) (h : sep ∉ l) :
    pySplit sep l = [l] := by
  induction l with
  | nil => rfl
  | cons c cs ih =>
    have hcs : sep ∉ cs := fun hm => h (List.mem_cons_of_mem _ hm)
    have hc : (c == sep) = false := by
      simp only [beq_eq_false_iff_ne, ne_eq]
      intro hcc
      exact h (hcc ▸ List.mem_cons_self _ _)
    rw [pySplit_cons_eq sep c cs (ih hcs), hc]
    rfl

theorem pySplit_len (sep : Char) (l : List Char) :
    (pySplit sep l).length = l.count sep + 1 := by
  induction l with
  | nil => rfl
  | cons c cs ih =>
    rcases hp : pySplit sep cs with _ | ⟨h, t⟩
    · exact absurd hp (pySplit_ne_nil sep cs)
    · rw [hp] at ih
      rw [pySplit_cons_eq sep c cs hp]
      by_cases hc : c = sep
      · subst hc
        rw [if_pos (beq_self_eq_true c), List.count_cons_self]
        simp only [List.length_cons] at ih ⊢
        omega
      · rw [if_neg (by simpa using hc),
          List.count_cons_of_ne (fun h2 => hc h2.symm)]
        simpa using ih

theorem pySplit_last_split (sep : Char) (l : List Char)
    (hcnt : 1 ≤ l.count sep) :
    ∃ pre suf, sep ∉ suf ∧ l = pre ++ sep :: suf ∧
      (pySplit sep l).dropLast.flatten = pre.filter (fun c => c != sep) ∧
      (pySplit sep l).getLastD [] = suf := by
  induction l with
  | nil => simp at hcnt
  | cons c cs ih =>
    by_cases hc : c = sep
    · subst hc
      by_cases hcs : 1 ≤ cs.count c
      · obtain ⟨pre, suf, h1, h2, h3, h4⟩ := ih hcs
        rcases hp : pySplit c cs with _ | ⟨h, t⟩
        · exact absurd hp (pySplit_ne_nil c cs)
        · rw [hp] at h3 h4
          refine ⟨c :: pre, suf, h1, by rw [List.cons_append, ← h2], ?_, ?_⟩
          · rw [pySplit_cons_eq c c cs hp, if_pos (beq_self_eq_true c),
              List.dropLast_cons₂, List.flatten_cons, List.nil_append]
            have hfc : List.filter (fun x => x != c) (c :: pre) =
                List.filter (fun x => x != c) pre := by
              simp [List.filter_cons]
            rw [hfc]
            exact h3
          · rw [pySplit_cons_eq c c cs hp, if_pos (beq_self_eq_true c),
              List.getLastD_cons]
            exact h4
      · have hns : c ∉ cs := by
          intro hm
          have := List.count_pos_iff.2 hm
          omega
        refine ⟨[], cs, hns, rfl, ?_, ?_⟩
        · rw [pySplit_cons_eq c c cs (pySplit_no_sep c cs hns),
            if_pos (beq_self_eq_true c)]
          rfl
        · rw [pySplit_cons_eq c c cs (pySplit_no_sep c cs hns),
            if_pos (beq_self_eq_true c)]
          rfl
    · have hcs : 1 ≤ cs.count sep := by
        rwa [List.count_cons_of_ne (fun h2 => hc h2.symm)] at hcnt
      obtain ⟨pre, suf, h1, h2, h3, h4⟩ := ih hcs
      have hlen := pySplit_len sep cs
      rcases hp : pySplit sep cs with _ | ⟨h, t⟩
      · exact absurd hp (pySplit_ne_nil sep cs)
      · rw [hp] at h3 h4 hlen
        cases t with
        | nil =>
          simp only [List.length_cons, List.length_nil] at hlen
          omega
        | cons b t2 =>
          refine ⟨c :: pre, suf, h1, by rw [List.cons_append, ← h2], ?_, ?_⟩
          · rw [List.dropLast_cons₂, List.flatten_cons] at h3
            have hfc : List.filter (fun x => x != sep) (c :: pre) =
                c :: List.filter (fun x => x != sep) pre := by
              simp [List.filter_cons, hc]
            rw [pySplit_cons_eq sep c cs hp, if_neg (by simpa using hc),
              List.dropLast_cons₂, List.flatten_cons, hfc, ← h3,
              List.cons_append]
          · rw [List.getLastD_cons, List.getLastD_cons] at h4
            rw [pySplit_cons_eq sep c cs hp, if_neg (by simpa using hc),
              List.getLastD_cons, List.getLastD_cons]
            exact h4

theorem normalize_price_chars_eq (p : String) :
    normalize_price_chars p =
      (if 1 < (priceStep4 (priceStripped p)).count '.' then
        (pySplit '.' (priceStep4 (priceStripped p))).dropLast.flatten ++
          '.' :: (pySplit '.' (priceStep4 (priceStripped p))).getLastD []
      else if 1 < (priceStep4 (priceStripped p)).count ',' then
        (pySplit ',' (priceStep4 (priceStripped p))).dropLast.flatten ++
          '.' :: (pySplit ',' (priceStep4 (priceStripped p))).getLastD []
      else priceStep4 (priceStripped p)) := rfl

/-- C3 (amended): the splitting branch fires per separator *kind*, not on
the combined count, and only the splitting separator is discarded from
the integer part.  When the stripped form has more than one dot, the
result is the characters before the last dot with the dots (only)
removed, a dot, and the segment after the last dot, which contains no
dot; when it has at most one dot and more than one comma, the analogous
comma split applies, commas (only) removed from the integer part. -/
theorem C3_price_split_amended (p : String) :
    (1 < (priceStep4 (priceStripped p)).count '.' →
      ∃ pre suf, ('.' : Char) ∉ suf ∧
        priceStep4 (priceStripped p) = pre ++ '.' :: suf ∧
        normalize_price_chars p =
          pre.filter (fun c => c != '.') ++ '.' :: suf) ∧
    ((priceStep4 (priceStripped p)).count '.' ≤ 1 →
      1 < (priceStep4 (priceStripped p)).count ',' →
      ∃ pre suf, (',' : Char) ∉ suf ∧
        priceStep4 (priceStripped p) = pre ++ ',' :: suf ∧
        normalize_price_chars p =
          pre.filter (fun c => c != ',') ++ '.' :: suf) := by
  constructor
  · intro hdot
    obtain ⟨pre, suf, h1, h2, h3, h4⟩ :=
      pySplit_last_split '.' (priceStep4 (priceStripped p)) (by omega)
    refine ⟨pre, suf, h1, h2, ?_⟩
    rw [normalize_price_chars_eq, if_pos hdot, h3, h4]
  · intro hdot hcomma
    obtain ⟨pre, suf, h1, h2, h3, h4⟩ :=
      pySplit_last_split ',' (priceStep4 (priceStripped p)) (by omega)
    refine ⟨pre, suf, h1, h2, ?_⟩
    rw [normalize_price_chars_eq, if_neg (by omega), if_pos hcomma, h3, h4]

/-- Witness for the amended C3 at concrete inputs exercising both
branches. -/
theorem C3_price_split_amended_witness :
    (∃ pre suf, ('.' : Char) ∉ suf ∧
      priceStep4 (priceStripped "1.2.3") = pre ++ '.' :: suf ∧
      normalize_price_chars "1.2.3" =
        pre.filter (fun c => c != '.') ++ '.' :: suf) ∧
    (∃ pre suf, (',' : Char) ∉ suf ∧
      priceStep4 (priceStripped "1,2,3") = pre ++ ',' :: suf ∧
      normalize_price_chars "1,2,3" =
        pre.filter (fun c => c != ',') ++ '.' :: suf) :=
  ⟨(C3_price_split_amended "1.2.3").1 (by decide),
   (C3_price_split_amended "1,2,3").2 (by decide) (by decide)⟩

theorem mem_of_lookup_eq_some {α β : Type} [BEq α] [LawfulBEq α]
    {l : List (α × β)} {a : α}
    {b : β} (h : List.lookup a l = some b) : (a, b) ∈ l := by
  induction l with
  | nil => simp [List.lookup] at h
  | cons p t ih =>
    obtain ⟨k, v⟩ := p
    rw [List.lookup] at h
    cases hak : a == k with
    | true =>
      rw [hak] at h
      have hab : a = k := beq_iff_eq.1 hak
      have hbv : v = b := by
        simpa using h
      subst hab
      subst hbv
      exact List.mem_cons_self _ _
    | false =>
      rw [hak] at h
      exact List.mem_cons_of_mem _ (ih h)

theorem pyLower_keepsNum {c : Char} (h : keepsNum (pyLower c) = true) :
    keepsNum c = true := by
  by_contra hc
  rw [pyLower] at h
  cases hl : List.lookup c lowerTable with
  | none =>
    rw [hl, Option.getD_none] at h
    exact hc h
  | some d =>
    rw [hl, Option.getD_some] at h
    have hmem := mem_of_lookup_eq_some hl
    have hall : lowerTable.all (fun q => !keepsNum q.2) = true := by decide
    have hd := List.all_eq_true.1 hall _ hmem
    simp only [Bool.not_eq_true'] at hd
    rw [hd] at h
    exact Bool.false_ne_true h

theorem mem_removeArs {c : Char} : ∀ l, c ∈ removeArs l → c ∈ l := by
  intro l
  induction l using removeArs.induct with
  | case1 rest ih =>
    rw [removeArs]
    intro h
    exact List.mem_cons_of_mem _ (List.mem_cons_of_mem _
      (List.mem_cons_of_mem _ (ih h)))
  | case2 d rest hne ih =>
    have heq : removeArs (d :: rest) = d :: removeArs rest := by
      rw [removeArs]
      exact hne
    rw [heq]
    intro h
    rcases List.mem_cons.1 h with rfl | h
    · exact List.mem_cons_self _ _
    · exact List.mem_cons_of_mem _ (ih h)
  | case3 =>
    rw [removeArs]
    exact fun h => h

theorem mem_collapseGo {c : Char} : ∀ (b : Bool) (l : List Char),
    c ∈ collapseGo b l → c = ' ' ∨ c ∈ l := by
  intro b l
  induction l generalizing b with
  | nil => intro h; simp [collapseGo] at h
  | cons d ds ih =>
    intro h
    rw [collapseGo] at h
    split at h
    · split at h
      · rcases ih true h with h2 | h2
        exacts [Or.inl h2, Or.inr (List.mem_cons_of_mem _ h2)]
      · rcases List.mem_cons.1 h with rfl | h
        · exact Or.inl rfl
        · rcases ih true h with h2 | h2
          exacts [Or.inl h2, Or.inr (List.mem_cons_of_mem _ h2)]
    · rcases List.mem_cons.1 h with rfl | h
      · exact Or.inr (List.mem_cons_self _ _)
      · rcases ih false h with h2 | h2
        exacts [Or.inl h2, Or.inr (List.mem_cons_of_mem _ h2)]

theorem mem_stripEnds {c : Char} {l : List Char} (h : c ∈ stripEnds l) :
    c ∈ l := by
  rw [stripEnds] at h
  have h1 := List.mem_reverse.1 h
  have h2 := (List.dropWhile_sublist isPySpace).subset h1
  have h3 := List.mem_reverse.1 h2
  exact (List.dropWhile_sublist isPySpace).subset h3

theorem mem_replaceNbsp {c : Char} {l : List Char} (h : c ∈ replaceNbsp l) :
    c = ' ' ∨ c ∈ l := by
  rcases List.mem_map.1 h with ⟨d, hd, hdc⟩
  by_cases hnb : d == '\u00A0'
  · rw [if_pos hnb] at hdc
    exact Or.inl hdc.symm
  · rw [if_neg hnb] at hdc
    exact Or.inr (hdc ▸ hd)

theorem mem_nwsChars {c : Char} {l : List Char} (h : c ∈ nwsChars l) :
    c = ' ' ∨ c ∈ l := by
  rw [nwsChars] at h
  have h1 := mem_stripEnds h
  rcases mem_collapseGo false (replaceNbsp l) h1 with h2 | h2
  · exact Or.inl h2
  · exact mem_replaceNbsp h2

theorem priceStripped_nil_of_no_numeric {p : String}
    (h : ∀ c ∈ p.data, keepsNum c = false) : priceStripped p = [] := by
  rw [priceStripped, List.filter_eq_nil_iff]
  intro c hc
  have hc1 : c ∈ nwsChars (p.data.map pyLower) := mem_removeArs _ hc
  rcases mem_nwsChars hc1 with rfl | hc2
  · decide
  · rcases List.mem_map.1 hc2 with ⟨c0, hc0, rfl⟩
    intro habs
    have hup := pyLower_keepsNum habs
    rw [h c0 hc0] at hup
    exact Bool.false_ne_true hup

/-- C9 (amended): a price string containing no digit, comma or dot
characters normalizes to the empty string, and two such prices compare
equal — a legitimate equality case of the empty normalization. -/
theorem C9_amended_no_numeric_chars_empty (p q : String)
    (hp : ∀ c ∈ p.data, keepsNum c = false)
    (hq : ∀ c ∈ q.data, keepsNum c = false) :
    normalize_price p = "" ∧ normalize_price q = "" ∧
      normalize_price p = normalize_price q := by
  have key : ∀ r : String, (∀ c ∈ r.data, keepsNum c = false) →
      normalize_price r = "" := by
    intro r hr
    have h0 := priceStripped_nil_of_no_numeric hr
    have h1 : normalize_price_chars r = [] := by
      rw [normalize_price_chars_eq, h0]
      rfl
    rw [normalize_price, h1]
  exact ⟨key p hp, key q hq, by rw [key p hp, key q hq]⟩

/-- Witness for the amended C9 at concrete digit-free inputs. -/
theorem C9_amended_witness :
    normalize_price "abc$" = "" ∧ normalize_price "x" = "" ∧
      normalize_price "abc$" = normalize_price "x" :=
  C9_amended_no_numeric_chars_empty "abc$" "x" (by decide) (by decide)

theorem mapUpsert_snd_mem {m : List (String × Item)} {k : String}
    {it v : Item} (h : v ∈ (mapUpsert m k it).map Prod.snd) :
    v ∈ m.map Prod.snd ∨ v = it := by
  rw [mapUpsert] at h
  split at h
  · rcases List.mem_map.1 h with ⟨q, hq, hqv⟩
    rcases List.mem_map.1 hq with ⟨p, hp, hpq⟩
    by_cases hk : (p.1 == k) = true
    · rw [if_pos hk] at hpq
      right
      rw [← hqv, ← hpq]
    · rw [if_neg hk] at hpq
      left
      exact List.mem_map.2 ⟨p, hp, by rw [hpq, hqv]⟩
  · rw [List.map_append] at h
    rcases List.mem_append.1 h with h2 | h2
    · exact Or.inl h2
    · right
      simpa using h2

theorem buildTitleMapGo_snd_mem :
    ∀ (items : List Item) (acc m : List (String × Item)),
      buildTitleMapGo acc items = some m →
      ∀ v ∈ m.map Prod.snd, v ∈ acc.map Prod.snd ∨ v ∈ items := by
  intro items
  induction items with
  | nil =>
    intro acc m h v hv
    rw [buildTitleMapGo] at h
    cases h
    exact Or.inl hv
  | cons it rest ih =>
    intro acc m h v hv
    rw [buildTitleMapGo] at h
    cases hti : it.title with
    | none =>
      rw [hti] at h
      cases h
    | some t =>
      rw [hti] at h
      rcases ih _ _ h v hv with h2 | h2
      · rcases mapUpsert_snd_mem h2 with h3 | h3
        · exact Or.inl h3
        · exact Or.inr (h3 ▸ List.mem_cons_self _ _)
      · exact Or.inr (List.mem_cons_of_mem _ h2)

theorem classifyNew_eq (om : List (String × Item)) :
    ∀ nm : List (String × Item), classifyNew om nm =
      (nm.filterMap (fun p =>
        match List.lookup p.1 om with
        | none => some p.2
        | some _ => none),
       nm.filterMap (fun p =>
        match List.lookup p.1 om with
        | none => none
        | some o =>
          if normalize_item p.2 = normalize_item o then some p.2 else none),
       nm.filterMap (fun p =>
        match List.lookup p.1 om with
        | none => none
        | some o =>
          if normalize_item p.2 = normalize_item o then none
          else some (.mismatch p.2 o "both" mismatchReason))) := by
  intro nm
  induction nm with
  | nil => rfl
  | cons p rest ih =>
    obtain ⟨k, x⟩ := p
    rw [classifyNew, ih]
    simp only [List.filterMap_cons]
    cases List.lookup k om with
    | none => rfl
    | some o =>
      by_cases hni : normalize_item x = normalize_item o
      · simp [hni]
      · simp [hni]

theorem compare_eq_some {new_items old_items : List Item}
    {res : ClassificationResult}
    (h : compare new_items old_items = some res) :
    ∃ nm om, buildTitleMap new_items = some nm ∧
      buildTitleMap old_items = some om ∧
      res.to_insert = (classifyNew om nm).1 ∧
      res.unchanged = (classifyNew om nm).2.1 ∧
      res.to_remove = om.filterMap (fun p =>
        if nm.any (fun q => q.1 == p.1) then none else some p.2) ∧
      res.anomalies = detect_duplicates new_items "nuevo.json" ++
        detect_duplicates old_items "viejo.json" ++ (classifyNew om nm).2.2 := by
  rw [compare] at h
  cases hbn : buildTitleMap new_items with
  | none =>
    rw [hbn] at h
    cases h
  | some nm =>
    cases hbo : buildTitleMap old_items with
    | none =>
      rw [hbn, hbo] at h
      cases h
    | some om =>
      rw [hbn, hbo] at h
      have h3 : some (⟨(classifyNew om nm).1,
          om.filterMap (fun p =>
            if nm.any (fun q => q.1 == p.1) then none else some p.2),
          (classifyNew om nm).2.1,
          (detect_duplicates new_items "nuevo.json" ++
            detect_duplicates old_items "viejo.json") ++
            (classifyNew om nm).2.2⟩ : ClassificationResult) = some res := h
      injection h3 with h4
      subst h4
      exact ⟨nm, om, rfl, rfl, rfl, rfl, rfl, rfl⟩

theorem detect_duplicates_member {items : List Item} {label : String}
    {e : AnomalyEntry} (he : e ∈ detect_duplicates items label) {x : Item}
    (hx : anomalyMember x e) : x ∈ items := by
  rw [detect_duplicates, groupByTitle_spec, specGroups] at he
  rcases List.mem_filterMap.1 he with ⟨p, hp, hfp⟩
  rcases List.mem_map.1 hp with ⟨t, _ht, hpt⟩
  by_cases hlen : 1 < p.2.length
  · rw [if_pos hlen] at hfp
    injection hfp with hfp2
    subst hfp2
    simp only [anomalyMember] at hx
    rw [← hpt] at hx
    exact List.mem_of_mem_filter hx
  · rw [if_neg hlen] at hfp
    cases hfp

theorem mem_flattenRaw {x : Item} : ∀ anoms : List AnomalyEntry,
    x ∈ flattenRaw anoms → ∃ e ∈ anoms, anomalyMember x e := by
  intro anoms
  induction anoms with
  | nil =>
    intro h
    simp [flattenRaw] at h
  | cons e rest ih =>
    intro h
    cases e with
    | dup items src r =>
      rw [flattenRaw] at h
      rcases List.mem_append.1 h with h2 | h2
      · split at h2
        · exact ⟨_, List.mem_cons_self _ _, h2⟩
        · simp at h2
      · obtain ⟨e2, he2, hm⟩ := ih h2
        exact ⟨e2, List.mem_cons_of_mem _ he2, hm⟩
    | mismatch n o src r =>
      rw [flattenRaw] at h
      rcases List.mem_cons.1 h with rfl | h2
      · exact ⟨_, List.mem_cons_self _ _, Or.inl rfl⟩
      · obtain ⟨e2, he2, hm⟩ := ih h2
        exact ⟨e2, List.mem_cons_of_mem _ he2, hm⟩

theorem mem_dedupGo {x : Item} : ∀ (seen : List String) (l : List Item),
    x ∈ dedupGo seen l → x ∈ l := by
  intro seen l
  induction l generalizing seen with
  | nil =>
    intro h
    simp [dedupGo] at h
  | cons it rest ih =>
    intro h
    rw [dedupGo] at h
    split at h
    · exact List.mem_cons_of_mem _ (ih _ h)
    · rcases List.mem_cons.1 h with rfl | h2
      · exact List.mem_cons_self _ _
      · exact List.mem_cons_of_mem _ (ih _ h2)

/-- C5: an item satisfying the sold-out predicate appears in none of the
pipeline's outputs — not in `to_insert`, `to_remove`, `unchanged`, inside
any anomaly entry (duplicate groups included), nor in the flattened
anomaly list or the ready list — for every pair of input sides. -/
theorem C5_sold_out_excluded (new_items old_items : List Item) (it : Item)
    (hsold : is_sold_out it = true) (res : ClassificationResult)
    (hres : compare (filter_sold_out new_items) (filter_sold_out old_items) =
      some res) :
    it ∉ res.to_insert ∧ it ∉ res.to_remove ∧ it ∉ res.unchanged ∧
      (∀ e ∈ res.anomalies, ¬ anomalyMember it e) ∧
      it ∉ flatten_new_anomalies res.anomalies ∧
      it ∉ build_ready_list res.to_insert
        (flatten_new_anomalies res.anomalies) := by
  obtain ⟨nm, om, hbn, hbo, hins, hunch, hrem, hanom⟩ := compare_eq_some hres
  have hnotn : it ∉ filter_sold_out new_items := by
    intro hm
    have h2 := List.of_mem_filter hm
    rw [hsold] at h2
    exact absurd h2 (by decide)
  have hnoto : it ∉ filter_sold_out old_items := by
    intro hm
    have h2 := List.of_mem_filter hm
    rw [hsold] at h2
    exact absurd h2 (by decide)
  have hnm : ∀ v ∈ nm.map Prod.snd, v ∈ filter_sold_out new_items := by
    intro v hv
    rcases buildTitleMapGo_snd_mem _ _ _ hbn v hv with h2 | h2
    · simp at h2
    · exact h2
  have hom : ∀ v ∈ om.map Prod.snd, v ∈ filter_sold_out old_items := by
    intro v hv
    rcases buildTitleMapGo_snd_mem _ _ _ hbo v hv with h2 | h2
    · simp at h2
    · exact h2
  have hins2 : it ∉ res.to_insert := by
    rw [hins, classifyNew_eq]
    intro hm
    rcases List.mem_filterMap.1 hm with ⟨p, hp, hfp⟩
    have hpi : p.2 = it := by
      cases hlk : List.lookup p.1 om with
      | none =>
        simp only [hlk] at hfp
        exact Option.some.inj hfp
      | some o =>
        simp only [hlk] at hfp
        simp at hfp
    exact hnotn (hnm it (List.mem_map.2 ⟨p, hp, hpi⟩))
  have hunch2 : it ∉ res.unchanged := by
    rw [hunch, classifyNew_eq]
    intro hm
    rcases List.mem_filterMap.1 hm with ⟨p, hp, hfp⟩
    have hpi : p.2 = it := by
      cases hlk : List.lookup p.1 om with
      | none =>
        simp only [hlk] at hfp
        simp at hfp
      | some o =>
        simp only [hlk] at hfp
        by_cases hni : normalize_item p.2 = normalize_item o
        · rw [if_pos hni] at hfp
          exact Option.some.inj hfp
        · rw [if_neg hni] at hfp
          simp at hfp
    exact hnotn (hnm it (List.mem_map.2 ⟨p, hp, hpi⟩))
  have hrem2 : it ∉ res.to_remove := by
    rw [hrem]
    intro hm
    rcases List.mem_filterMap.1 hm with ⟨p, hp, hfp⟩
    have hpi : p.2 = it := by
      split at hfp
      · cases hfp
      · injection hfp
    exact hnoto (hom it (List.mem_map.2 ⟨p, hp, hpi⟩))
  have hanom2 : ∀ e ∈ res.anomalies, ¬ anomalyMember it e := by
    intro e he hmem
    rw [hanom] at he
    rcases List.mem_append.1 he with he2 | he2
    · rcases List.mem_append.1 he2 with he3 | he3
      · exact hnotn (detect_duplicates_member he3 hmem)
      · exact hnoto (detect_duplicates_member he3 hmem)
    · rcases List.mem_filterMap.1 (by
        rw [classifyNew_eq] at he2
        exact he2) with ⟨p, hp, hfp⟩
      cases hlk : List.lookup p.1 om with
      | none =>
        simp only [hlk] at hfp
        simp at hfp
      | some o =>
        simp only [hlk] at hfp
        by_cases hni : normalize_item p.2 = normalize_item o
        · rw [if_pos hni] at hfp
          simp at hfp
        · rw [if_neg hni] at hfp
          have hfp2 := Option.some.inj hfp
          subst hfp2
          simp only [anomalyMember] at hmem
          rcases hmem with h5 | h5
          · exact hnotn (by
              rw [h5]
              exact hnm p.2 (List.mem_map.2 ⟨p, hp, rfl⟩))
          · exact hnoto (by
              rw [h5]
              exact hom o (List.mem_map.2
                ⟨(p.1, o), mem_of_lookup_eq_some hlk, rfl⟩))
  have hflat2 : it ∉ flatten_new_anomalies res.anomalies := by
    intro hm
    obtain ⟨e, he, hmem⟩ := mem_flattenRaw _ (mem_dedupGo _ _ hm)
    exact hanom2 e he hmem
  refine ⟨hins2, hrem2, hunch2, hanom2, hflat2, ?_⟩
  intro hm
  rcases List.mem_append.1 (mem_dedupGo _ _ hm) with h2 | h2
  · exact hins2 h2
  · exact hflat2 h2

/-- Witness for C5: a sold-out item (details `["*AGOTADO*"]`) with an
identically-titled item on the other side is excluded from every output
bucket of the pipeline. -/
theorem C5_sold_out_excluded_witness :
    (⟨some "Pizza", some ["*AGOTADO*"], some "1000"⟩ : Item) ∉
        (⟨[⟨some "Burger", some ["x"], some "5"⟩],
          [⟨some "Pizza", some ["muzza"], some "1000"⟩], [], []⟩ :
            ClassificationResult).to_insert ∧
      (⟨some "Pizza", some ["*AGOTADO*"], some "1000"⟩ : Item) ∉
        (⟨[⟨some "Burger", some ["x"], some "5"⟩],
          [⟨some "Pizza", some ["muzza"], some "1000"⟩], [], []⟩ :
            ClassificationResult).to_remove ∧
      (⟨some "Pizza", some ["*AGOTADO*"], some "1000"⟩ : Item) ∉
        (⟨[⟨some "Burger", some ["x"], some "5"⟩],
          [⟨some "Pizza", some ["muzza"], some "1000"⟩], [], []⟩ :
            ClassificationResult).unchanged ∧
      (∀ e ∈ (⟨[⟨some "Burger", some ["x"], some "5"⟩],
          [⟨some "Pizza", some ["muzza"], some "1000"⟩], [], []⟩ :
            ClassificationResult).anomalies,
        ¬ anomalyMember ⟨some "Pizza", some ["*AGOTADO*"], some "1000"⟩ e) ∧
      (⟨some "Pizza", some ["*AGOTADO*"], some "1000"⟩ : Item) ∉
        flatten_new_anomalies (⟨[⟨some "Burger", some ["x"], some "5"⟩],
          [⟨some "Pizza", some ["muzza"], some "1000"⟩], [], []⟩ :
            ClassificationResult).anomalies ∧
      (⟨some "Pizza", some ["*AGOTADO*"], some "1000"⟩ : Item) ∉
        build_ready_list (⟨[⟨some "Burger", some ["x"], some "5"⟩],
          [⟨some "Pizza", some ["muzza"], some "1000"⟩], [], []⟩ :
            ClassificationResult).to_insert
          (flatten_new_anomalies (⟨[⟨some "Burger", some ["x"], some "5"⟩],
            [⟨some "Pizza", some ["muzza"], some "1000"⟩], [], []⟩ :
              ClassificationResult).anomalies) :=
  C5_sold_out_excluded
    [⟨some "Pizza", some ["*AGOTADO*"], some "1000"⟩,
     ⟨some "Burger", some ["x"], some "5"⟩]
    [⟨some "Pizza", some ["muzza"], some "1000"⟩]
    ⟨some "Pizza", some ["*AGOTADO*"], some "1000"⟩
    (by decide)
    ⟨[⟨some "Burger", some ["x"], some "5"⟩],
     [⟨some "Pizza", some ["muzza"], some "1000"⟩], [], []⟩
    (by decide)

theorem buildTitleMapGo_eq :
    ∀ (items : List Item) (acc m : List (String × Item)),
      buildTitleMapGo acc items = some m →
      (∀ k ∈ acc.map Prod.fst, k ∉ items.map titleKey) →
      (items.map titleKey).Nodup →
      m = acc ++ items.map (fun i => (titleKey i, i)) := by
  intro items
  induction items with
  | nil =>
    intro acc m h _ _
    rw [buildTitleMapGo] at h
    cases h
    simp
  | cons it rest ih =>
    intro acc m h hdisj hnd
    rw [buildTitleMapGo] at h
    cases hti : it.title with
    | none =>
      simp only [hti] at h
      simp at h
    | some t =>
      simp only [hti] at h
      have hkt : normalize_text t = titleKey it := by
        simp [titleKey, hti]
      have hknotacc : titleKey it ∉ acc.map Prod.fst := by
        intro hmem
        exact hdisj _ hmem (by
          rw [List.map_cons]
          exact List.mem_cons_self _ _)
      have hany : (acc.any (fun p => p.1 == normalize_text t)) = false := by
        rw [List.any_eq_false]
        intro p hp hbeq
        have hp1 : p.1 = normalize_text t := beq_iff_eq.1 hbeq
        exact hknotacc (List.mem_map.2 ⟨p, hp, by rw [hp1, hkt]⟩)
      have hup : mapUpsert acc (normalize_text t) it =
          acc ++ [(normalize_text t, it)] := by
        rw [mapUpsert, if_neg (by rw [hany]; exact Bool.false_ne_true)]
      rw [hup] at h
      rw [List.map_cons] at hnd
      have hnd2 := hnd.of_cons
      have hhead := (List.nodup_cons.1 hnd).1
      have hdisj2 : ∀ k ∈ (acc ++ [(normalize_text t, it)]).map Prod.fst,
          k ∉ rest.map titleKey := by
        intro k hk
        rw [List.map_append] at hk
        rcases List.mem_append.1 hk with hk2 | hk2
        · intro hmem
          exact hdisj k hk2 (by
            rw [List.map_cons]
            exact List.mem_cons_of_mem _ hmem)
        · simp only [List.map_cons, List.map_nil, List.mem_singleton] at hk2
          subst hk2
          rw [hkt]
          exact hhead
      have := ih _ _ h hdisj2 hnd2
      rw [this, List.append_assoc]
      congr 1
      rw [List.map_cons, hkt]
      rfl

theorem buildTitleMap_eq {items : List Item} {m : List (String × Item)}
    (h : buildTitleMap items = some m)
    (hnd : (items.map titleKey).Nodup) :
    m = items.map (fun i => (titleKey i, i)) := by
  have := buildTitleMapGo_eq items [] m h (by simp) hnd
  simpa using this

theorem lookup_pairs_eq_none {items : List Item} {k : String} :
    List.lookup k (items.map (fun i => (titleKey i, i))) = none ↔
      k ∉ items.map titleKey := by
  induction items with
  | nil => simp [List.lookup]
  | cons i rest ih =>
    rw [List.map_cons, List.lookup]
    cases hbeq : k == titleKey i with
    | true =>
      have hkeq : k = titleKey i := beq_iff_eq.1 hbeq
      simp [hkeq]
    | false =>
      have hkne : ¬ k = titleKey i := by
        intro hkeq
        rw [hkeq] at hbeq
        simp at hbeq
      rw [ih]
      simp [hkne]

theorem lookup_pairs_mem {items : List Item} {k : String} {v : Item}
    (h : List.lookup k (items.map (fun i => (titleKey i, i))) = some v) :
    v ∈ items ∧ titleKey v = k := by
  have hm := mem_of_lookup_eq_some h
  rcases List.mem_map.1 hm with ⟨i, hi, heq⟩
  injection heq with h1 h2
  subst h2
  exact ⟨hi, h1⟩

theorem lookup_pairs_of_mem {items : List Item}
    (hnd : (items.map titleKey).Nodup) {i : Item} (hi : i ∈ items) :
    List.lookup (titleKey i) (items.map (fun j => (titleKey j, j))) = some i := by
  induction items with
  | nil => cases hi
  | cons j rest ih =>
    rw [List.map_cons, List.lookup]
    rw [List.map_cons] at hnd
    rcases List.mem_cons.1 hi with rfl | hi2
    · rw [beq_self_eq_true]
    · have hne : (titleKey i == titleKey j) = false := by
        simp only [beq_eq_false_iff_ne, ne_eq]
        intro hkeq
        exact (List.nodup_cons.1 hnd).1
          (hkeq ▸ List.mem_map.2 ⟨i, hi2, rfl⟩)
      rw [hne]
      exact ih (List.nodup_cons.1 hnd).2 hi2

theorem filter_title_len_le_one {items : List Item}
    (hnd : (items.map titleKey).Nodup) (t : String) :
    (items.filter (fun it => titleKey it == t)).length ≤ 1 := by
  induction items with
  | nil => simp
  | cons i rest ih =>
    rw [List.map_cons] at hnd
    rw [List.filter_cons]
    by_cases hbeq : (titleKey i == t) = true
    · rw [if_pos hbeq]
      have hteq : titleKey i = t := beq_iff_eq.1 hbeq
      have hnil : rest.filter (fun it => titleKey it == t) = [] := by
        rw [List.filter_eq_nil_iff]
        intro j hj hbj
        have : titleKey j = t := beq_iff_eq.1 hbj
        exact (List.nodup_cons.1 hnd).1
          ((hteq.trans this.symm) ▸ List.mem_map.2 ⟨j, hj, rfl⟩)
      rw [hnil]
      simp
    · rw [if_neg hbeq]
      exact ih (List.nodup_cons.1 hnd).2

theorem detect_duplicates_nil_of_nodup {items : List Item}
    (hnd : (items.map titleKey).Nodup) (label : String) :
    detect_duplicates items label = [] := by
  rw [detect_duplicates, groupByTitle_spec, specGroups]
  rw [List.filterMap_map, List.filterMap_eq_nil_iff]
  intro t _
  have := filter_title_len_le_one hnd t
  simp only [Function.comp]
  rw [if_neg (by omega)]

theorem mem_classify_insert {old_items new_items : List Item} {x : Item} :
    x ∈ (classifyNew (old_items.map (fun i => (titleKey i, i)))
        (new_items.map (fun i => (titleKey i, i)))).1 ↔
      x ∈ new_items ∧
        List.lookup (titleKey x)
          (old_items.map (fun i => (titleKey i, i))) = none := by
  rw [classifyNew_eq]
  constructor
  · intro hx
    rcases List.mem_filterMap.1 hx with ⟨p, hp, hfp⟩
    rcases List.mem_map.1 hp with ⟨i, hi, rfl⟩
    dsimp only at hfp
    cases hlk : List.lookup (titleKey i)
        (old_items.map (fun j => (titleKey j, j))) with
    | none =>
      simp only [hlk] at hfp
      have hxi := Option.some.inj hfp
      subst hxi
      exact ⟨hi, hlk⟩
    | some o =>
      simp only [hlk] at hfp
      simp at hfp
  · rintro ⟨hx, hlk⟩
    apply List.mem_filterMap.2
    refine ⟨(titleKey x, x), List.mem_map.2 ⟨x, hx, rfl⟩, ?_⟩
    dsimp only
    simp only [hlk]

theorem mem_classify_unchanged {old_items new_items : List Item} {x : Item} :
    x ∈ (classifyNew (old_items.map (fun i => (titleKey i, i)))
        (new_items.map (fun i => (titleKey i, i)))).2.1 ↔
      ∃ o, x ∈ new_items ∧
        List.lookup (titleKey x)
          (old_items.map (fun i => (titleKey i, i))) = some o ∧
        normalize_item x = normalize_item o := by
  rw [classifyNew_eq]
  constructor
  · intro hx
    rcases List.mem_filterMap.1 hx with ⟨p, hp, hfp⟩
    rcases List.mem_map.1 hp with ⟨i, hi, rfl⟩
    dsimp only at hfp
    cases hlk : List.lookup (titleKey i)
        (old_items.map (fun j => (titleKey j, j))) with
    | none =>
      simp only [hlk] at hfp
      simp at hfp
    | some o =>
      simp only [hlk] at hfp
      by_cases hni : normalize_item i = normalize_item o
      · rw [if_pos hni] at hfp
        have hxi := Option.some.inj hfp
        subst hxi
        exact ⟨o, hi, hlk, hni⟩
      · rw [if_neg hni] at hfp
        simp at hfp
  · rintro ⟨o, hx, hlk, hni⟩
    apply List.mem_filterMap.2
    refine ⟨(titleKey x, x), List.mem_map.2 ⟨x, hx, rfl⟩, ?_⟩
    dsimp only
    simp only [hlk, if_pos hni]

theorem mem_classify_mismatch {old_items new_items : List Item}
    {e : AnomalyEntry} :
    e ∈ (classifyNew (old_items.map (fun i => (titleKey i, i)))
        (new_items.map (fun i => (titleKey i, i)))).2.2 ↔
      ∃ j o, j ∈ new_items ∧
        List.lookup (titleKey j)
          (old_items.map (fun i => (titleKey i, i))) = some o ∧
        normalize_item j ≠ normalize_item o ∧
        e = .mismatch j o "both" mismatchReason := by
  rw [classifyNew_eq]
  constructor
  · intro hx
    rcases List.mem_filterMap.1 hx with ⟨p, hp, hfp⟩
    rcases List.mem_map.1 hp with ⟨i, hi, rfl⟩
    dsimp only at hfp
    cases hlk : List.lookup (titleKey i)
        (old_items.map (fun j => (titleKey j, j))) with
    | none =>
      simp only [hlk] at hfp
      simp at hfp
    | some o =>
      simp only [hlk] at hfp
      by_cases hni : normalize_item i = normalize_item o
      · rw [if_pos hni] at hfp
        simp at hfp
      · rw [if_neg hni] at hfp
        exact ⟨i, o, hi, hlk, hni, (Option.some.inj hfp).symm⟩
  · rintro ⟨j, o, hj, hlk, hni, rfl⟩
    apply List.mem_filterMap.2
    refine ⟨(titleKey j, j), List.mem_map.2 ⟨j, hj, rfl⟩, ?_⟩
    dsimp only
    simp only [hlk, if_neg hni]

theorem mem_compare_remove {old_items : List Item}
    {nm : List (String × Item)} {x : Item} :
    x ∈ (old_items.map (fun i => (titleKey i, i))).filterMap (fun p =>
        if nm.any (fun q => q.1 == p.1) then none else some p.2) ↔
      x ∈ old_items ∧ (nm.any (fun q => q.1 == titleKey x)) = false := by
  constructor
  · intro hx
    rcases List.mem_filterMap.1 hx with ⟨p, hp, hfp⟩
    rcases List.mem_map.1 hp with ⟨i, hi, rfl⟩
    dsimp only at hfp
    cases hany : nm.any (fun q => q.1 == titleKey i) with
    | true =>
      rw [if_pos hany] at hfp
      simp at hfp
    | false =>
      rw [if_neg (by rw [hany]; exact Bool.false_ne_true)] at hfp
      have hxi := Option.some.inj hfp
      subst hxi
      exact ⟨hi, hany⟩
  · rintro ⟨hx, hany⟩
    apply List.mem_filterMap.2
    refine ⟨(titleKey x, x), List.mem_map.2 ⟨x, hx, rfl⟩, ?_⟩
    dsimp only
    rw [if_neg (by rw [hany]; exact Bool.false_ne_true)]

theorem any_pairs_key {items : List Item} {k : String} :
    ((items.map (fun i => (titleKey i, i))).any (fun q => q.1 == k)) = true ↔
      k ∈ items.map titleKey := by
  rw [List.any_eq_true]
  constructor
  · rintro ⟨q, hq, hbeq⟩
    rcases List.mem_map.1 hq with ⟨i, hi, rfl⟩
    have hik : titleKey i = k := beq_iff_eq.1 (by simpa using hbeq)
    exact hik ▸ List.mem_map.2 ⟨i, hi, rfl⟩
  · intro hk
    rcases List.mem_map.1 hk with ⟨i, hi, rfl⟩
    exact ⟨(titleKey i, i), List.mem_map.2 ⟨i, hi, rfl⟩, by simp⟩

/-- C6: on input sides whose (post-filter) items have pairwise distinct
normalized titles, every new-side normalized title appears in exactly one
of `to_insert` / `unchanged` / `anomalies`, every old-side normalized
title appears in exactly one of `to_remove` / `unchanged` / `anomalies`,
and no item value is placed in more than one bucket. -/
theorem C6_classification_exactly_one (new_items old_items : List Item)
    (hdn : (new_items.map titleKey).Nodup)
    (hdo : (old_items.map titleKey).Nodup)
    (res : ClassificationResult)
    (hres : compare new_items old_items = some res) :
    (∀ i ∈ new_items, exactlyOne
      (titleKey i ∈ res.to_insert.map titleKey)
      (titleKey i ∈ res.unchanged.map titleKey)
      (∃ e ∈ res.anomalies, anomalyNewTitle (titleKey i) e)) ∧
    (∀ i ∈ old_items, exactlyOne
      (titleKey i ∈ res.to_remove.map titleKey)
      (titleKey i ∈ res.unchanged.map titleKey)
      (∃ e ∈ res.anomalies, anomalyOldTitle (titleKey i) e)) ∧
    (∀ x : Item,
      (x ∈ res.to_insert → x ∉ res.to_remove ∧ x ∉ res.unchanged ∧
        ∀ e ∈ res.anomalies, ¬ anomalyMember x e) ∧
      (x ∈ res.to_remove → x ∉ res.unchanged ∧
        ∀ e ∈ res.anomalies, ¬ anomalyMember x e) ∧
      (x ∈ res.unchanged → ∀ e ∈ res.anomalies, ¬ anomalyMember x e)) := by
  obtain ⟨nm, om, hbn, hbo, hins, hunch, hrem, hanom⟩ := compare_eq_some hres
  have hnmL := buildTitleMap_eq hbn hdn
  have homL := buildTitleMap_eq hbo hdo
  subst hnmL
  subst homL
  rw [detect_duplicates_nil_of_nodup hdn, detect_duplicates_nil_of_nodup hdo,
    List.nil_append, List.nil_append] at hanom
  have hInsMem : ∀ x : Item, x ∈ res.to_insert ↔ x ∈ new_items ∧
      List.lookup (titleKey x)
        (old_items.map (fun i => (titleKey i, i))) = none := by
    intro x
    rw [hins]
    exact mem_classify_insert
  have hUnchMem : ∀ x : Item, x ∈ res.unchanged ↔ ∃ o, x ∈ new_items ∧
      List.lookup (titleKey x)
        (old_items.map (fun i => (titleKey i, i))) = some o ∧
      normalize_item x = normalize_item o := by
    intro x
    rw [hunch]
    exact mem_classify_unchanged
  have hAnomMem : ∀ e : AnomalyEntry, e ∈ res.anomalies ↔
      ∃ j o, j ∈ new_items ∧
        List.lookup (titleKey j)
          (old_items.map (fun i => (titleKey i, i))) = some o ∧
        normalize_item j ≠ normalize_item o ∧
        e = .mismatch j o "both" mismatchReason := by
    intro e
    rw [hanom]
    exact mem_classify_mismatch
  have hRemMem : ∀ x : Item, x ∈ res.to_remove ↔
      x ∈ old_items ∧ titleKey x ∉ new_items.map titleKey := by
    intro x
    rw [hrem, mem_compare_remove]
    constructor
    · rintro ⟨h1, h2⟩
      refine ⟨h1, fun hmem => ?_⟩
      exact absurd (any_pairs_key.2 hmem)
        (by rw [h2]; exact Bool.false_ne_true)
    · rintro ⟨h1, h2⟩
      refine ⟨h1, ?_⟩
      cases hany : ((new_items.map (fun i => (titleKey i, i))).any
          (fun q => q.1 == titleKey x)) with
      | true => exact absurd (any_pairs_key.1 hany) h2
      | false => rfl
  have hInjNew : ∀ {x y : Item}, x ∈ new_items → y ∈ new_items →
      titleKey x = titleKey y → x = y :=
    fun hx hy h => List.inj_on_of_nodup_map hdn hx hy h
  refine ⟨?_, ?_, ?_⟩
  · -- (a) new side
    intro i hi
    cases hlk : List.lookup (titleKey i)
        (old_items.map (fun j => (titleKey j, j))) with
    | none =>
      refine Or.inl ⟨List.mem_map.2 ⟨i, (hInsMem i).2 ⟨hi, hlk⟩, rfl⟩, ?_, ?_⟩
      · intro hmem
        rcases List.mem_map.1 hmem with ⟨x, hx, hxk⟩
        obtain ⟨o, _hxn, hlk2, _⟩ := (hUnchMem x).1 hx
        rw [hxk] at hlk2
        rw [hlk] at hlk2
        cases hlk2
      · rintro ⟨e, he, hnt⟩
        obtain ⟨j, o, _hj, hlk2, _, rfl⟩ := (hAnomMem e).1 he
        simp only [anomalyNewTitle] at hnt
        rw [hnt] at hlk2
        rw [hlk] at hlk2
        cases hlk2
    | some o =>
      by_cases heq : normalize_item i = normalize_item o
      · refine Or.inr (Or.inl ⟨?_, ?_, ?_⟩)
        · intro hmem
          rcases List.mem_map.1 hmem with ⟨x, hx, hxk⟩
          obtain ⟨_hxn, hlk2⟩ := (hInsMem x).1 hx
          rw [hxk, hlk] at hlk2
          cases hlk2
        · exact List.mem_map.2 ⟨i, (hUnchMem i).2 ⟨o, hi, hlk, heq⟩, rfl⟩
        · rintro ⟨e, he, hnt⟩
          obtain ⟨j, o2, hj, hlk2, hne2, rfl⟩ := (hAnomMem e).1 he
          simp only [anomalyNewTitle] at hnt
          have hji : j = i := hInjNew hj hi hnt
          subst hji
          rw [hlk] at hlk2
          have ho2 := Option.some.inj hlk2
          subst ho2
          exact hne2 heq
      · refine Or.inr (Or.inr ⟨?_, ?_, ?_⟩)
        · intro hmem
          rcases List.mem_map.1 hmem with ⟨x, hx, hxk⟩
          obtain ⟨_hxn, hlk2⟩ := (hInsMem x).1 hx
          rw [hxk, hlk] at hlk2
          cases hlk2
        · intro hmem
          rcases List.mem_map.1 hmem with ⟨x, hx, hxk⟩
          obtain ⟨o2, hxn, hlk2, heq2⟩ := (hUnchMem x).1 hx
          have hxi : x = i := hInjNew hxn hi hxk
          subst hxi
          rw [hlk] at hlk2
          have ho2 := Option.some.inj hlk2
          subst ho2
          exact heq heq2
        · refine ⟨.mismatch i o "both" mismatchReason,
            (hAnomMem _).2 ⟨i, o, hi, hlk, heq, rfl⟩, ?_⟩
          simp only [anomalyNewTitle]
  · -- (b) old side
    intro i hi
    by_cases hkn : titleKey i ∈ new_items.map titleKey
    · rcases List.mem_map.1 hkn with ⟨j, hj, hjk⟩
      have hlkI : List.lookup (titleKey i)
          (old_items.map (fun x => (titleKey x, x))) = some i :=
        lookup_pairs_of_mem hdo hi
      by_cases heq : normalize_item j = normalize_item i
      · refine Or.inr (Or.inl ⟨?_, ?_, ?_⟩)
        · intro hmem
          rcases List.mem_map.1 hmem with ⟨x, hx, hxk⟩
          obtain ⟨_hxo, hnot⟩ := (hRemMem x).1 hx
          rw [hxk] at hnot
          exact hnot hkn
        · refine List.mem_map.2 ⟨j, (hUnchMem j).2 ⟨i, hj, ?_, heq⟩, hjk⟩
          rw [hjk]
          exact hlkI
        · rintro ⟨e, he, hot⟩
          obtain ⟨j2, o, hj2, hlk2, hne2, rfl⟩ := (hAnomMem e).1 he
          simp only [anomalyOldTitle] at hot
          obtain ⟨_ho, hok⟩ := lookup_pairs_mem hlk2
          have hj2k : titleKey j2 = titleKey i := by
            rw [← hok, hot]
          have hj2j : j2 = j := hInjNew hj2 hj (hj2k.trans hjk.symm)
          subst hj2j
          rw [hj2k, hlkI] at hlk2
          have hoi := Option.some.inj hlk2
          subst hoi
          exact hne2 heq
      · refine Or.inr (Or.inr ⟨?_, ?_, ?_⟩)
        · intro hmem
          rcases List.mem_map.1 hmem with ⟨x, hx, hxk⟩
          obtain ⟨_hxo, hnot⟩ := (hRemMem x).1 hx
          rw [hxk] at hnot
          exact hnot hkn
        · intro hmem
          rcases List.mem_map.1 hmem with ⟨x, hx, hxk⟩
          obtain ⟨o2, hxn, hlk2, heq2⟩ := (hUnchMem x).1 hx
          have hxj : x = j := hInjNew hxn hj (hxk.trans hjk.symm)
          subst hxj
          rw [hxk, hlkI] at hlk2
          have ho2 := Option.some.inj hlk2
          subst ho2
          exact heq heq2
        · refine ⟨.mismatch j i "both" mismatchReason,
            (hAnomMem _).2 ⟨j, i, hj, by rw [hjk]; exact hlkI, heq, rfl⟩, ?_⟩
          simp only [anomalyOldTitle]
    · refine Or.inl ⟨List.mem_map.2 ⟨i, (hRemMem i).2 ⟨hi, hkn⟩, rfl⟩, ?_, ?_⟩
      · intro hmem
        rcases List.mem_map.1 hmem with ⟨x, hx, hxk⟩
        obtain ⟨o, hxn, _, _⟩ := (hUnchMem x).1 hx
        exact hkn (hxk ▸ List.mem_map.2 ⟨x, hxn, rfl⟩)
      · rintro ⟨e, he, hot⟩
        obtain ⟨j, o, hj, hlk2, _, rfl⟩ := (hAnomMem e).1 he
        simp only [anomalyOldTitle] at hot
        obtain ⟨_ho, hok⟩ := lookup_pairs_mem hlk2
        have : titleKey j = titleKey i := by rw [← hok, hot]
        exact hkn (this ▸ List.mem_map.2 ⟨j, hj, rfl⟩)
  · -- (c) buckets pairwise disjoint at the item level
    intro x
    refine ⟨?_, ?_, ?_⟩
    · intro hx
      obtain ⟨hxn, hlkn⟩ := (hInsMem x).1 hx
      have hknot : titleKey x ∉ old_items.map titleKey :=
        lookup_pairs_eq_none.1 hlkn
      refine ⟨?_, ?_, ?_⟩
      · intro hx2
        obtain ⟨hxo, _⟩ := (hRemMem x).1 hx2
        exact hknot (List.mem_map.2 ⟨x, hxo, rfl⟩)
      · intro hx2
        obtain ⟨o, _, hlk2, _⟩ := (hUnchMem x).1 hx2
        rw [hlkn] at hlk2
        cases hlk2
      · intro e he hmem
        obtain ⟨j, o, hj, hlk2, hne2, rfl⟩ := (hAnomMem e).1 he
        simp only [anomalyMember] at hmem
        obtain ⟨ho, hok⟩ := lookup_pairs_mem hlk2
        rcases hmem with rfl | rfl
        · rw [hlkn] at hlk2
          cases hlk2
        · exact hknot (List.mem_map.2 ⟨x, ho, rfl⟩)
    · intro hx
      obtain ⟨hxo, hknot⟩ := (hRemMem x).1 hx
      refine ⟨?_, ?_⟩
      · intro hx2
        obtain ⟨o, hxn, _, _⟩ := (hUnchMem x).1 hx2
        exact hknot (List.mem_map.2 ⟨x, hxn, rfl⟩)
      · intro e he hmem
        obtain ⟨j, o, hj, hlk2, hne2, rfl⟩ := (hAnomMem e).1 he
        simp only [anomalyMember] at hmem
        obtain ⟨ho, hok⟩ := lookup_pairs_mem hlk2
        rcases hmem with rfl | rfl
        · exact hknot (List.mem_map.2 ⟨x, hj, rfl⟩)
        · rw [hok] at hknot
          exact hknot (List.mem_map.2 ⟨j, hj, rfl⟩)
    · intro hx
      obtain ⟨o0, hxn, hlk0, heq0⟩ := (hUnchMem x).1 hx
      intro e he hmem
      obtain ⟨j, o, hj, hlk2, hne2, rfl⟩ := (hAnomMem e).1 he
      simp only [anomalyMember] at hmem
      obtain ⟨ho, hok⟩ := lookup_pairs_mem hlk2
      rcases hmem with rfl | rfl
      · rw [hlk0] at hlk2
        have := Option.some.inj hlk2
        subst this
        exact hne2 heq0
      · have hjx : j = x := hInjNew hj hxn hok.symm
        subst hjx
        rw [hlk0] at hlk2
        have := Option.some.inj hlk2
        subst this
        exact hne2 heq0

/-- Witness for C6 at a concrete pair of disjoint-title inputs with an
insert, a removal and a mismatch anomaly. -/
theorem C6_classification_exactly_one_witness :
    (∀ i ∈ [(⟨some "Pizza", some ["muzza"], some "1000"⟩ : Item),
        ⟨some "Taco", some ["t"], some "5"⟩], exactlyOne
      (titleKey i ∈ (⟨[⟨some "Taco", some ["t"], some "5"⟩],
          [⟨some "Sushi", some ["s"], some "9"⟩], [],
          [.mismatch ⟨some "Pizza", some ["muzza"], some "1000"⟩
            ⟨some "Pizza", some ["napo"], some "1000"⟩ "both"
            mismatchReason]⟩ :
            ClassificationResult).to_insert.map titleKey)
      (titleKey i ∈ (⟨[⟨some "Taco", some ["t"], some "5"⟩],
          [⟨some "Sushi", some ["s"], some "9"⟩], [],
          [.mismatch ⟨some "Pizza", some ["muzza"], some "1000"⟩
            ⟨some "Pizza", some ["napo"], some "1000"⟩ "both"
            mismatchReason]⟩ :
            ClassificationResult).unchanged.map titleKey)
      (∃ e ∈ (⟨[⟨some "Taco", some ["t"], some "5"⟩],
          [⟨some "Sushi", some ["s"], some "9"⟩], [],
          [.mismatch ⟨some "Pizza", some ["muzza"], some "1000"⟩
            ⟨some "Pizza", some ["napo"], some "1000"⟩ "both"
            mismatchReason]⟩ :
            ClassificationResult).anomalies,
        anomalyNewTitle (titleKey i) e)) ∧
    (∀ i ∈ [(⟨some "Pizza", some ["napo"], some "1000"⟩ : Item),
        ⟨some "Sushi", some ["s"], some "9"⟩], exactlyOne
      (titleKey i ∈ (⟨[⟨some "Taco", some ["t"], some "5"⟩],
          [⟨some "Sushi", some ["s"], some "9"⟩], [],
          [.mismatch ⟨some "Pizza", some ["muzza"], some "1000"⟩
            ⟨some "Pizza", some ["napo"], some "1000"⟩ "both"
            mismatchReason]⟩ :
            ClassificationResult).to_remove.map titleKey)
      (titleKey i ∈ (⟨[⟨some "Taco", some ["t"], some "5"⟩],
          [⟨some "Sushi", some ["s"], some "9"⟩], [],
          [.mismatch ⟨some "Pizza", some ["muzza"], some "1000"⟩
            ⟨some "Pizza", some ["napo"], some "1000"⟩ "both"
            mismatchReason]⟩ :
            ClassificationResult).unchanged.map titleKey)
      (∃ e ∈ (⟨[⟨some "Taco", some ["t"], some "5"⟩],
          [⟨some "Sushi", some ["s"], some "9"⟩], [],
          [.mismatch ⟨some "Pizza", some ["muzza"], some "1000"⟩
            ⟨some "Pizza", some ["napo"], some "1000"⟩ "both"
            mismatchReason]⟩ :
            ClassificationResult).anomalies,
        anomalyOldTitle (titleKey i) e)) ∧
    (∀ x : Item,
      (x ∈ (⟨[⟨some "Taco", some ["t"], some "5"⟩],
          [⟨some "Sushi", some ["s"], some "9"⟩], [],
          [.mismatch ⟨some "Pizza", some ["muzza"], some "1000"⟩
            ⟨some "Pizza", some ["napo"], some "1000"⟩ "both"
            mismatchReason]⟩ :
            ClassificationResult).to_insert →
        x ∉ (⟨[⟨some "Taco", some ["t"], some "5"⟩],
          [⟨some "Sushi", some ["s"], some "9"⟩], [],
          [.mismatch ⟨some "Pizza", some ["muzza"], some "1000"⟩
            ⟨some "Pizza", some ["napo"], some "1000"⟩ "both"
            mismatchReason]⟩ :
            ClassificationResult).to_remove ∧
        x ∉ (⟨[⟨some "Taco", some ["t"], some "5"⟩],
          [⟨some "Sushi", some ["s"], some "9"⟩], [],
          [.mismatch ⟨some "Pizza", some ["muzza"], some "1000"⟩
            ⟨some "Pizza", some ["napo"], some "1000"⟩ "both"
            mismatchReason]⟩ :
            ClassificationResult).unchanged ∧
        ∀ e ∈ (⟨[⟨some "Taco", some ["t"], some "5"⟩],
          [⟨some "Sushi", some ["s"], some "9"⟩], [],
          [.mismatch ⟨some "Pizza", some ["muzza"], some "1000"⟩
            ⟨some "Pizza", some ["napo"], some "1000"⟩ "both"
            mismatchReason]⟩ :
            ClassificationResult).anomalies, ¬ anomalyMember x e) ∧
      (x ∈ (⟨[⟨some "Taco", some ["t"], some "5"⟩],
          [⟨some "Sushi", some ["s"], some "9"⟩], [],
          [.mismatch ⟨some "Pizza", some ["muzza"], some "1000"⟩
            ⟨some "Pizza", some ["napo"], some "1000"⟩ "both"
            mismatchReason]⟩ :
            ClassificationResult).to_remove →
        x ∉ (⟨[⟨some "Taco", some ["t"], some "5"⟩],
          [⟨some "Sushi", some ["s"], some "9"⟩], [],
          [.mismatch ⟨some "Pizza", some ["muzza"], some "1000"⟩
            ⟨some "Pizza", some ["napo"], some "1000"⟩ "both"
            mismatchReason]⟩ :
            ClassificationResult).unchanged ∧
        ∀ e ∈ (⟨[⟨some "Taco", some ["t"], some "5"⟩],
          [⟨some "Sushi", some ["s"], some "9"⟩], [],
          [.mismatch ⟨some "Pizza", some ["muzza"], some "1000"⟩
            ⟨some "Pizza", some ["napo"], some "1000"⟩ "both"
            mismatchReason]⟩ :
            ClassificationResult).anomalies, ¬ anomalyMember x e) ∧
      (x ∈ (⟨[⟨some "Taco", some ["t"], some "5"⟩],
          [⟨some "Sushi", some ["s"], some "9"⟩], [],
          [.mismatch ⟨some "Pizza", some ["muzza"], some "1000"⟩
            ⟨some "Pizza", some ["napo"], some "1000"⟩ "both"
            mismatchReason]⟩ :
            ClassificationResult).unchanged →
        ∀ e ∈ (⟨[⟨some "Taco", some ["t"], some "5"⟩],
          [⟨some "Sushi", some ["s"], some "9"⟩], [],
          [.mismatch ⟨some "Pizza", some ["muzza"], some "1000"⟩
            ⟨some "Pizza", some ["napo"], some "1000"⟩ "both"
            mismatchReason]⟩ :
            ClassificationResult).anomalies, ¬ anomalyMember x e)) :=
  C6_classification_exactly_one
    [⟨some "Pizza", some ["muzza"], some "1000"⟩,
     ⟨some "Taco", some ["t"], some "5"⟩]
    [⟨some "Pizza", some ["napo"], some "1000"⟩,
     ⟨some "Sushi", some ["s"], some "9"⟩]
    (by decide) (by decide)
    ⟨[⟨some "Taco", some ["t"], some "5"⟩],
     [⟨some "Sushi", some ["s"], some "9"⟩], [],
     [.mismatch ⟨some "Pizza", some ["muzza"], some "1000"⟩
       ⟨some "Pizza", some ["napo"], some "1000"⟩ "both" mismatchReason]⟩
    (by decide)

theorem spacesArePlain_collapseGo : ∀ (b : Bool) (l : List Char),
    spacesArePlain (collapseGo b l) := by
  intro b l
  induction l generalizing b with
  | nil =>
    intro c hc
    simp [collapseGo] at hc
  | cons d ds ih =>
    intro c hc hsp
    rw [collapseGo] at hc
    by_cases hd : isPySpace d = true
    · rw [if_pos hd] at hc
      cases b with
      | true =>
        rw [if_pos rfl] at hc
        exact ih true c hc hsp
      | false =>
        rw [if_neg Bool.false_ne_true] at hc
        rcases List.mem_cons.1 hc with rfl | hc2
        · rfl
        · exact ih true c hc2 hsp
    · rw [if_neg hd] at hc
      rcases List.mem_cons.1 hc with rfl | hc2
      · exact absurd hsp hd
      · exact ih false c hc2 hsp

theorem head_collapseGo_true : ∀ l : List Char,
    ∀ c ∈ (collapseGo true l).head?, isPySpace c = false := by
  intro l
  induction l with
  | nil =>
    intro c hc
    simp [collapseGo] at hc
  | cons d ds ih =>
    intro c hc
    rw [collapseGo] at hc
    by_cases hd : isPySpace d = true
    · rw [if_pos hd, if_pos rfl] at hc
      exact ih c hc
    · rw [if_neg hd] at hc
      simp only [List.head?_cons, Option.mem_def, Option.some.injEq] at hc
      subst hc
      simpa using hd

theorem noAdjacentSpaces_collapseGo : ∀ (b : Bool) (l : List Char),
    noAdjacentSpaces (collapseGo b l) := by
  intro b l
  induction l generalizing b with
  | nil =>
    rw [noAdjacentSpaces]
    simp [collapseGo]
  | cons d ds ih =>
    rw [noAdjacentSpaces, collapseGo]
    by_cases hd : isPySpace d = true
    · rw [if_pos hd]
      cases b with
      | true =>
        rw [if_pos rfl]
        exact ih true
      | false =>
        rw [if_neg Bool.false_ne_true, List.chain'_cons']
        refine ⟨?_, ih true⟩
        intro y hy
        rintro ⟨_, hy2⟩
        rw [head_collapseGo_true ds y hy] at hy2
        exact Bool.false_ne_true hy2
    · rw [if_neg hd, List.chain'_cons']
      refine ⟨?_, ih false⟩
      intro y hy
      rintro ⟨hd2, _⟩
      exact hd hd2

theorem head?_dropWhile_false (p : Char → Bool) :
    ∀ l : List Char, ∀ c ∈ (l.dropWhile p).head?, p c = false := by
  intro l
  induction l with
  | nil =>
    intro c hc
    simp [List.dropWhile] at hc
  | cons d ds ih =>
    intro c hc
    by_cases hd : p d = true
    · rw [List.dropWhile_cons_of_pos hd] at hc
      exact ih c hc
    · rw [List.dropWhile_cons_of_neg hd] at hc
      simp only [List.head?_cons, Option.mem_def, Option.some.injEq] at hc
      subst hc
      simpa using hd

theorem noAdjacentSpaces_reverse {l : List Char} (h : noAdjacentSpaces l) :
    noAdjacentSpaces l.reverse := by
  rw [noAdjacentSpaces, List.chain'_reverse]
  exact h.imp (fun a b hab h2 => hab ⟨h2.2, h2.1⟩)

theorem nws_props (l : List Char) :
    spacesArePlain (nwsChars l) ∧ noAdjacentSpaces (nwsChars l) ∧
      noEdgeSpace (nwsChars l) := by
  have hsp : spacesArePlain (collapseWs (replaceNbsp l)) :=
    spacesArePlain_collapseGo false _
  have hna : noAdjacentSpaces (collapseWs (replaceNbsp l)) :=
    noAdjacentSpaces_collapseGo false _
  have hBsub : (collapseWs (replaceNbsp l)).dropWhile isPySpace <:+
      collapseWs (replaceNbsp l) := List.dropWhile_suffix _
  have hCsub : ((collapseWs (replaceNbsp l)).dropWhile
        isPySpace).reverse.dropWhile isPySpace <:+
      ((collapseWs (replaceNbsp l)).dropWhile isPySpace).reverse :=
    List.dropWhile_suffix _
  refine ⟨?_, ?_, ?_, ?_⟩
  · intro c hc hspc
    rw [nwsChars, stripEnds] at hc
    have hc1 := List.mem_reverse.1 hc
    have hc2 := hCsub.subset hc1
    have hc3 := List.mem_reverse.1 hc2
    exact hsp c (hBsub.subset hc3) hspc
  · rw [nwsChars, stripEnds, noAdjacentSpaces, List.chain'_reverse]
    have h1 : noAdjacentSpaces
        ((collapseWs (replaceNbsp l)).dropWhile isPySpace) :=
      List.Chain'.suffix hna hBsub
    have h2 := noAdjacentSpaces_reverse h1
    have h3 : noAdjacentSpaces
        (((collapseWs (replaceNbsp l)).dropWhile
          isPySpace).reverse.dropWhile isPySpace) :=
      List.Chain'.suffix h2 hCsub
    exact h3.imp (fun a b hab h2 => hab ⟨h2.2, h2.1⟩)
  · intro c hc
    rw [nwsChars, stripEnds, List.head?_reverse] at hc
    have hcC := List.mem_of_mem_getLast? hc
    obtain ⟨t, ht⟩ := hCsub
    have hCne : ((collapseWs (replaceNbsp l)).dropWhile
        isPySpace).reverse.dropWhile isPySpace ≠ [] := by
      intro h0
      rw [h0] at hcC
      simp at hcC
    have hlast : (((collapseWs (replaceNbsp l)).dropWhile
          isPySpace).reverse.dropWhile isPySpace).getLast? =
        (((collapseWs (replaceNbsp l)).dropWhile
          isPySpace).reverse).getLast? := by
      conv_rhs => rw [← ht]
      rw [List.getLast?_append_of_ne_nil t hCne]
    rw [hlast, List.getLast?_reverse] at hc
    exact head?_dropWhile_false isPySpace _ c hc
  · intro c hc
    rw [nwsChars, stripEnds, List.getLast?_reverse] at hc
    exact head?_dropWhile_false isPySpace _ c hc

theorem map_fix {f : Char → Char} :
    ∀ l : List Char, (∀ c ∈ l, f c = c) → l.map f = l := by
  intro l h
  induction l with
  | nil => rfl
  | cons c cs ih =>
    rw [List.map_cons, h c (List.mem_cons_self _ _),
      ih (fun d hd => h d (List.mem_cons_of_mem _ hd))]

theorem collapseGo_fix :
    ∀ l : List Char, spacesArePlain l → noAdjacentSpaces l →
      collapseGo false l = l ∧
        ((∀ c ∈ l.head?, isPySpace c = false) → collapseGo true l = l) := by
  intro l
  induction l with
  | nil => exact fun _ _ => ⟨rfl, fun _ => rfl⟩
  | cons d ds ih =>
    intro hsp hna
    have hsp2 : spacesArePlain ds :=
      fun c hc h => hsp c (List.mem_cons_of_mem _ hc) h
    have hna2 : noAdjacentSpaces ds := (List.chain'_cons'.1 hna).2
    obtain ⟨ihf, iht⟩ := ih hsp2 hna2
    by_cases hd : isPySpace d = true
    · have hdeq : d = ' ' := hsp d (List.mem_cons_self _ _) hd
      have hhead : ∀ c ∈ ds.head?, isPySpace c = false := by
        intro c hc
        have hR := (List.chain'_cons'.1 hna).1 c hc
        cases hpc : isPySpace c with
        | false => rfl
        | true => exact absurd ⟨hd, hpc⟩ hR
      constructor
      · rw [collapseGo, if_pos hd, if_neg Bool.false_ne_true, iht hhead, hdeq]
      · intro hh
        have hcon := hh d (by simp)
        rw [hd] at hcon
        exact absurd hcon (by decide)
    · constructor
      · rw [collapseGo, if_neg hd, ihf]
      · intro _
        rw [collapseGo, if_neg hd, ihf]

theorem stripEnds_fix {l : List Char} (he : noEdgeSpace l) :
    stripEnds l = l := by
  obtain ⟨hh, hl⟩ := he
  have h1 : l.dropWhile isPySpace = l := by
    cases l with
    | nil => rfl
    | cons d ds =>
      have hd := hh d (by simp)
      rw [List.dropWhile_cons_of_neg (by rw [hd]; exact Bool.false_ne_true)]
  rw [stripEnds, h1]
  have h2 : l.reverse.dropWhile isPySpace = l.reverse := by
    cases hr : l.reverse with
    | nil => rfl
    | cons d ds =>
      have hd : d ∈ l.getLast? := by
        rw [← List.head?_reverse, hr]
        simp
      have hdf := hl d hd
      rw [List.dropWhile_cons_of_neg (by rw [hdf]; exact Bool.false_ne_true)]
  rw [h2, List.reverse_reverse]

theorem nws_fix {l : List Char} (hsp : spacesArePlain l)
    (hna : noAdjacentSpaces l) (he : noEdgeSpace l) : nwsChars l = l := by
  have hnb : replaceNbsp l = l := by
    rw [replaceNbsp]
    apply map_fix
    intro c hc
    by_cases hcn : (c == '\u00A0') = true
    · have hceq : c = '\u00A0' := beq_iff_eq.1 hcn
      have := hsp c hc (by rw [hceq]; decide)
      rw [this] at hceq
      exact absurd hceq (by decide)
    · rw [if_neg hcn]
  rw [nwsChars, hnb, collapseWs, (collapseGo_fix l hsp hna).1]
  exact stripEnds_fix he

theorem outC_space : outC ' ' = [' '] := by decide

theorem tameChar_props {c : Char} (h : tameChar c = true) :
    outC c ≠ [] ∧ ∀ d ∈ outC c, isPySpace d = false ∧ pyLower d = d ∧
      nfkd d = [d] ∧ combining d = false := by
  rw [tameChar, Bool.and_eq_true] at h
  obtain ⟨h1, h2⟩ := h
  constructor
  · intro h0
    rw [h0] at h1
    simp at h1
  · intro d hd
    have hall := List.all_eq_true.1 h2 d hd
    simp only [Bool.and_eq_true, beq_iff_eq, Bool.not_eq_true'] at hall
    exact ⟨hall.1.1.1, hall.1.1.2, hall.1.2, hall.2⟩

theorem outC_ne_nil {c : Char} (hsp : isPySpace c = true → c = ' ')
    (ht : isPySpace c = false → tameChar c = true) : outC c ≠ [] := by
  cases hpc : isPySpace c with
  | true =>
    rw [hsp hpc]
    decide
  | false => exact (tameChar_props (ht hpc)).1

theorem flatMap_outC_spaces {w : List Char} (hsp : spacesArePlain w)
    (ht : ∀ c ∈ w, isPySpace c = false → tameChar c = true) :
    spacesArePlain (w.flatMap outC) := by
  intro d hd hspd
  rcases List.mem_flatMap.1 hd with ⟨c, hc, hdc⟩
  cases hpc : isPySpace c with
  | true =>
    have hceq := hsp c hc hpc
    subst hceq
    rw [outC_space] at hdc
    simpa using hdc
  | false =>
    have htc := tameChar_props (ht c hc hpc)
    have hdf := (htc.2 d hdc).1
    rw [hdf] at hspd
    exact absurd hspd (by decide)

theorem flatMap_outC_ne_nil {w : List Char} (hw : w ≠ [])
    (hne : ∀ c ∈ w, outC c ≠ []) : w.flatMap outC ≠ [] := by
  cases w with
  | nil => exact absurd rfl hw
  | cons c cs =>
    rw [List.flatMap_cons]
    intro h0
    rcases List.append_eq_nil.1 h0 with ⟨h1, _⟩
    exact hne c (List.mem_cons_self _ _) h1

theorem head_flatMap_outC {w : List Char}
    (hne : ∀ c ∈ w, outC c ≠ [])
    (hh : ∀ c ∈ w.head?, isPySpace c = false)
    (ht : ∀ c ∈ w, isPySpace c = false → tameChar c = true) :
    ∀ d ∈ (w.flatMap outC).head?, isPySpace d = false := by
  cases w with
  | nil =>
    intro d hd
    simp at hd
  | cons c cs =>
    intro d hd
    rw [List.flatMap_cons] at hd
    have hc0 : isPySpace c = false := hh c (by simp)
    have htc := tameChar_props (ht c (List.mem_cons_self _ _) hc0)
    cases ho : outC c with
    | nil => exact absurd ho htc.1
    | cons x xs =>
      rw [ho, List.cons_append] at hd
      simp only [List.head?_cons, Option.mem_def, Option.some.injEq] at hd
      subst hd
      exact (htc.2 x (by rw [ho]; exact List.mem_cons_self _ _)).1

theorem last_flatMap_outC {w : List Char}
    (hne : ∀ c ∈ w, outC c ≠ [])
    (hl : ∀ c ∈ w.getLast?, isPySpace c = false)
    (ht : ∀ c ∈ w, isPySpace c = false → tameChar c = true) :
    ∀ d ∈ (w.flatMap outC).getLast?, isPySpace d = false := by
  induction w with
  | nil =>
    intro d hd
    simp at hd
  | cons c cs ih =>
    intro d hd
    rw [List.flatMap_cons] at hd
    cases hcs : cs with
    | nil =>
      subst hcs
      simp only [List.flatMap_nil, List.append_nil] at hd
      have hc0 : isPySpace c = false := hl c (by simp)
      have htc := tameChar_props (ht c (List.mem_cons_self _ _) hc0)
      exact (htc.2 d (List.mem_of_mem_getLast? hd)).1
    | cons c2 cs2 =>
      subst hcs
      have hfne : (c2 :: cs2).flatMap outC ≠ [] :=
        flatMap_outC_ne_nil (by simp)
          (fun x hx => hne x (List.mem_cons_of_mem _ hx))
      rw [List.getLast?_append_of_ne_nil _ hfne] at hd
      refine ih (fun x hx => hne x (List.mem_cons_of_mem _ hx)) ?_
        (fun x hx hpx => ht x (List.mem_cons_of_mem _ hx) hpx) d hd
      intro x hx
      apply hl
      rwa [List.getLast?_cons_cons]

theorem chain_of_all_nonspace {m : List Char}
    (h : ∀ d ∈ m, isPySpace d = false) :
    m.Chain' (fun a b => ¬(isPySpace a = true ∧ isPySpace b = true)) := by
  induction m with
  | nil => simp
  | cons a as ih =>
    rw [List.chain'_cons']
    refine ⟨?_, ih (fun d hd => h d (List.mem_cons_of_mem _ hd))⟩
    intro y _
    rintro ⟨ha, _⟩
    rw [h a (List.mem_cons_self _ _)] at ha
    exact Bool.false_ne_true ha

theorem chain_flatMap_outC {w : List Char} (hsp : spacesArePlain w)
    (hna : noAdjacentSpaces w)
    (ht : ∀ c ∈ w, isPySpace c = false → tameChar c = true) :
    noAdjacentSpaces (w.flatMap outC) := by
  induction w with
  | nil =>
    rw [noAdjacentSpaces]
    simp
  | cons c cs ih =>
    rw [noAdjacentSpaces, List.flatMap_cons, List.chain'_append]
    have hsp2 : spacesArePlain cs :=
      fun x hx h2 => hsp x (List.mem_cons_of_mem _ hx) h2
    have hna2 : noAdjacentSpaces cs := (List.chain'_cons'.1 hna).2
    have ht2 : ∀ x ∈ cs, isPySpace x = false → tameChar x = true :=
      fun x hx h2 => ht x (List.mem_cons_of_mem _ hx) h2
    refine ⟨?_, ih hsp2 hna2 ht2, ?_⟩
    · cases hpc : isPySpace c with
      | true =>
        have hceq := hsp c (List.mem_cons_self _ _) hpc
        rw [hceq, outC_space]
        simp
      | false =>
        have htc := tameChar_props (ht c (List.mem_cons_self _ _) hpc)
        exact chain_of_all_nonspace (fun d hd => (htc.2 d hd).1)
    · intro x hx y hy
      rintro ⟨hx2, hy2⟩
      -- x is a space, so c is a space
      have hcx : isPySpace c = true := by
        cases hpc : isPySpace c with
        | true => rfl
        | false =>
          have htc := tameChar_props (ht c (List.mem_cons_self _ _) hpc)
          have := (htc.2 x (List.mem_of_mem_getLast? hx)).1
          rw [this] at hx2
          exact absurd hx2 (by decide)
      -- y is a space, so the head of cs is a space
      cases hcs : cs with
      | nil =>
        subst hcs
        simp at hy
      | cons c2 cs2 =>
        subst hcs
        have hc2sp : isPySpace c2 = true := by
          cases hpc2 : isPySpace c2 with
          | true => rfl
          | false =>
            have htc2 := tameChar_props
              (ht c2 (List.mem_cons_of_mem _ (List.mem_cons_self _ _)) hpc2)
            have hyin : y ∈ outC c2 := by
              rw [List.flatMap_cons] at hy
              cases ho2 : outC c2 with
              | nil => exact absurd ho2 htc2.1
              | cons z zs =>
                rw [ho2, List.cons_append] at hy
                simp only [List.head?_cons, Option.mem_def,
                  Option.some.injEq] at hy
                subst hy
                simp [ho2]
            have := (htc2.2 y hyin).1
            rw [this] at hy2
            exact absurd hy2 (by decide)
        have hR := (List.chain'_cons'.1 hna).1 c2 (by simp)
        exact hR ⟨hcx, hc2sp⟩

theorem flatMap_outC_chars {w : List Char} (hsp : spacesArePlain w)
    (ht : ∀ c ∈ w, isPySpace c = false → tameChar c = true) :
    ∀ d ∈ w.flatMap outC, pyLower d = d ∧ nfkd d = [d] ∧
      combining d = false := by
  intro d hd
  rcases List.mem_flatMap.1 hd with ⟨c, hc, hdc⟩
  cases hpc : isPySpace c with
  | true =>
    have hceq := hsp c hc hpc
    subst hceq
    rw [outC_space] at hdc
    simp only [List.mem_singleton] at hdc
    subst hdc
    exact ⟨by decide, by decide, by decide⟩
  | false =>
    have htc := tameChar_props (ht c hc hpc)
    exact ⟨(htc.2 d hdc).2.1, (htc.2 d hdc).2.2.1, (htc.2 d hdc).2.2.2⟩

theorem flatMap_eq_self {f : Char → List Char} :
    ∀ l : List Char, (∀ a ∈ l, f a = [a]) → l.flatMap f = l := by
  intro l h
  induction l with
  | nil => rfl
  | cons a as ih =>
    rw [List.flatMap_cons, h a (List.mem_cons_self _ _),
      ih (fun d hd => h d (List.mem_cons_of_mem _ hd))]
    rfl

theorem stripAccents_fix {l : List Char}
    (h : ∀ d ∈ l, nfkd d = [d] ∧ combining d = false) :
    stripAccents l = l := by
  rw [stripAccents, flatMap_eq_self l (fun a ha => (h a ha).1)]
  exact List.filter_eq_self.2 (fun a ha => by rw [(h a ha).2]; rfl)

theorem stripAccents_map_lower : ∀ w : List Char,
    stripAccents (w.map pyLower) = w.flatMap outC := by
  intro w
  induction w with
  | nil => rfl
  | cons c cs ih =>
    rw [stripAccents, List.map_cons, List.flatMap_cons, List.filter_append]
    rw [show List.filter (fun c => !combining c)
        ((List.map pyLower cs).flatMap nfkd) =
        stripAccents (cs.map pyLower) from rfl]
    rw [ih, List.flatMap_cons]
    rfl

/-- C4 (amended): `normalize_text` is idempotent on every string whose
non-whitespace characters are tame — each contributes a nonempty,
whitespace-free, lowercase-stable and decomposition-stable run to the
normalized text (`tameChar`).  Every ordinary text character is tame; the
counterexample shows the restriction is needed, since a bare combining
mark contributes nothing and can expose a new space run to the second
pass. -/
theorem C4_normalize_text_idempotent_amended (s : String)
    (h : ∀ c ∈ s.data, isPySpace c = false → tameChar c = true) :
    normalize_text (normalize_text s) = normalize_text s := by
  obtain ⟨hw1, hw2, hw3⟩ := nws_props s.data
  have hwt : ∀ c ∈ nwsChars s.data, isPySpace c = false →
      tameChar c = true := by
    intro c hc hpc
    rcases mem_nwsChars hc with rfl | hc2
    · exact absurd hpc (by decide)
    · exact h c hc2 hpc
  have hne : ∀ c ∈ nwsChars s.data, outC c ≠ [] :=
    fun c hc => outC_ne_nil (fun hp => hw1 c hc hp) (fun hp => hwt c hc hp)
  have hrdef : normalize_text_chars s.data =
      (nwsChars s.data).flatMap outC := by
    rw [normalize_text_chars, stripAccents_map_lower]
  have hr1 := flatMap_outC_spaces hw1 hwt
  have hr2 := chain_flatMap_outC hw1 hw2 hwt
  have hr3 : noEdgeSpace ((nwsChars s.data).flatMap outC) :=
    ⟨head_flatMap_outC hne hw3.1 hwt, last_flatMap_outC hne hw3.2 hwt⟩
  have hrc := flatMap_outC_chars hw1 hwt
  have hfix : normalize_text_chars ((nwsChars s.data).flatMap outC) =
      (nwsChars s.data).flatMap outC := by
    rw [normalize_text_chars, nws_fix hr1 hr2 hr3,
      map_fix _ (fun c hc => (hrc c hc).1),
      stripAccents_fix (fun d hd => ⟨(hrc d hd).2.1, (hrc d hd).2.2⟩)]
  have hdata : (normalize_text s).data = (nwsChars s.data).flatMap outC := by
    rw [show (normalize_text s).data = normalize_text_chars s.data from rfl,
      hrdef]
  rw [normalize_text, hdata, hfix, normalize_text]
  congr 1
  exact hrdef.symm

/-- Witness for the amended C4: idempotence at `"  Café   LATTE "`, whose
non-whitespace characters are all tame. -/
theorem C4_normalize_text_idempotent_amended_witness :
    normalize_text (normalize_text "  Café   LATTE ") =
      normalize_text "  Café   LATTE " :=
  C4_normalize_text_idempotent_amended "  Café   LATTE " (by decide)

/-- C7 (amended: the source labels are the literals `"nuevo.json"` and
`"viejo.json"`): for each side, the duplicate detector emits exactly one
entry per normalized title having more than one member — carrying all
members of the group in input order and tagged with the side's label —
in first-appearance order of the duplicated titles, and no entry for
titles with exactly one member.  This is the full characterization: the
detector's output is the list of distinct titles in first-appearance
order, filtered to those whose member group (the side's items with that
title, in input order) has length above one, each mapped to its single
`dup` entry. -/
theorem C7_duplicate_detector_spec (items : List Item) (label : String) :
    detect_duplicates items label =
      (firstDedup (items.map titleKey)).filterMap (fun t =>
        if 1 < (items.filter (fun it => titleKey it == t)).length then
          some (.dup (items.filter (fun it => titleKey it == t)) label
            (dupReason label
              (items.filter (fun it => titleKey it == t)).length t))
        else none) := by
  rw [detect_duplicates, groupByTitle_spec, specGroups, List.filterMap_map]
  rfl

/-- C8: at every input, the ready list is the keep-first
deduplication-by-normalized-title of `to_insert` concatenated with the
flattened new-side anomalies, and its normalized titles are pairwise
distinct. -/
theorem C8_ready_list_dedup (to_insert anomalies_new : List Item) :
    build_ready_list to_insert anomalies_new =
        dedupByTitleSpec (to_insert ++ anomalies_new) ∧
      ((build_ready_list to_insert anomalies_new).map titleKey).Nodup := by
  have h1 : build_ready_list to_insert anomalies_new =
      dedupByTitleSpec (to_insert ++ anomalies_new) := by
    rw [build_ready_list, dedupGo_spec]
    congr 1
    simp
  exact ⟨h1, h1 ▸ nodup_titles_dedupByTitleSpec _⟩

end CompareJson
